import Mathlib

/-!
Verification of the optimization-pipeline orchestrator (`compiler/optimizer.go`).

The orchestrator `Optimize` is modelled as a function producing the ordered
trace of phases it executes together with its `error` result.  Outcomes of
the fallible external collaborators (the IR verifier, goroutine lowering, and
the two GC instrumentation passes' changed-flags) are supplied by an
environment record, mirroring the fact that the Go code only branches on
their results.  The two inline rewrites (`runtime.isnil` lowering and
`replacePanicsWithTrap`) and the linkage-finalizer loop are additionally
modelled on small IR module types so their per-instruction behaviour can be
stated and proved.
-/

set_option autoImplicit false

namespace TinyGoOpt

/-- Configuration of the LLVM pass-manager builder as set up at the top of
`Optimize`: `builder.SetOptLevel(optLevel)`, `builder.SetSizeLevel(sizeLevel)`,
`builder.UseInlinerWithThreshold(inlinerThreshold)` guarded by
`inlinerThreshold != 0`, and `builder.AddCoroutinePassesToExtensionPoints()`. -/
structure PassManagerBuilder where
  optLevel : Int
  sizeLevel : Int
  inliner : Option Nat
  coroutinePasses : Bool
deriving DecidableEq, Repr

/-- The four whole-module passes added to `goPasses` in `Optimize`. -/
inductive GoPass where
  | globalOptimizer
  | constantPropagation
  | aggressiveDCE
  | functionAttrs
deriving DecidableEq, Repr

/-- The checkpoints at which the IR verifier is invoked by `Optimize`. -/
inductive GatePoint where
  | verifyIR
  | postLowering
  | postGC
deriving DecidableEq, Repr

/-- One phase executed by `Optimize`, in the order the Go code performs them.
`functionPasses` and `modulePasses` record the builder configuration the pass
managers were populated from; `goPassesRun` records the explicit pass bundle
of the `goPasses` pass manager. -/
inductive Event where
  | panicTrapRewriter
  | verificationGate (p : GatePoint)
  | functionPasses (b : PassManagerBuilder)
  | goPassesRun (passes : List GoPass)
  | optimizeMaps
  | optimizeStringToBytes
  | optimizeAllocs
  | lowerInterfaces
  | lowerFuncValues
  | nilCheckLowering
  | lowerGoroutines
  | sizeAttributeTagging
  | linkageFinalizer
  | modulePasses (b : PassManagerBuilder)
  | addGlobalsBitmap
  | makeGCStackSlots
deriving DecidableEq, Repr

/-- A Go `error` value: either `errors.New(msg)` as created inside `Optimize`,
or an opaque error produced by a collaborator (only `LowerGoroutines` returns
one). -/
inductive GoError where
  | new (msg : String)
  | external (tag : Nat)
deriving DecidableEq, Repr

/-- The arguments of `Optimize` together with the relevant compiler
configuration fields it reads (`c.PanicStrategy`, `c.VerifyIR`). -/
structure Config where
  optLevel : Int
  sizeLevel : Int
  inlinerThreshold : Nat
  panicStrategy : String
  verifyIR : Bool
deriving DecidableEq, Repr

/-- Outcomes of the fallible collaborator calls made during one run:
whether the optional leading IR check passes, the result of
`c.LowerGoroutines()`, the result of `c.Verify()` after lowering, the
changed-flags returned by `c.addGlobalsBitmap()` and `c.makeGCStackSlots()`,
and the result of `c.Verify()` after GC instrumentation. -/
structure Env where
  verifyIROk : Bool
  lowerGoroutinesErr : Option GoError
  verifyAfterLoweringOk : Bool
  addGlobalsBitmapChanged : Bool
  makeGCStackSlotsChanged : Bool
  verifyAfterGCOk : Bool
deriving DecidableEq, Repr

/-- The builder configured at the top of `Optimize`. -/
def builderOf (cfg : Config) : PassManagerBuilder :=
  { optLevel := cfg.optLevel
    sizeLevel := cfg.sizeLevel
    inliner := if cfg.inlinerThreshold ≠ 0 then some cfg.inlinerThreshold else none
    coroutinePasses := true }

/-- The `goPasses` bundle: `AddGlobalOptimizerPass`, `AddConstantPropagationPass`,
`AddAggressiveDCEPass`, `AddFunctionAttrsPass`, in that order. -/
def goPassesBundle : List GoPass :=
  [.globalOptimizer, .constantPropagation, .aggressiveDCE, .functionAttrs]

/-- The tail of `Optimize` from `if err := c.Verify(); err != nil` onward:
post-lowering verification, optional `optsize` tagging, the linkage reset
loop, the second function-pass run, the module passes, and the two GC
instrumentation steps with their conditional final verification.

Note `hasGCPass = c.makeGCStackSlots() || hasGCPass` evaluates
`c.makeGCStackSlots()` first, so both GC steps always run. -/
def optimizeTail (cfg : Config) (env : Env) (b : PassManagerBuilder) :
    List Event × Except GoError Unit :=
  if env.verifyAfterLoweringOk = false then
    ([.verificationGate .postLowering],
     .error (.new "optimizations caused a verification failure"))
  else
    let t : List Event :=
      [.verificationGate .postLowering]
      ++ (if cfg.sizeLevel ≥ 2 then [Event.sizeAttributeTagging] else [])
      ++ [.linkageFinalizer, .functionPasses b, .modulePasses b,
          .addGlobalsBitmap, .makeGCStackSlots]
    if env.addGlobalsBitmapChanged || env.makeGCStackSlotsChanged then
      if env.verifyAfterGCOk then
        (t ++ [.verificationGate .postGC], .ok ())
      else
        (t ++ [.verificationGate .postGC],
         .error (.new "GC pass caused a verification failure"))
    else
      (t, .ok ())

/-- The optimization-level branch of `Optimize`: at `optLevel > 0` the
generic bundle, the Go-specific optimizers, interface and func-value
lowering, the bundle again, the interprocedural optimizers, the
`runtime.isnil` lowering loop, and goroutine lowering; at `optLevel <= 0`
only the three mandatory lowerings.  A goroutine-lowering error is
returned unchanged. -/
def optimizeBody (cfg : Config) (env : Env) (b : PassManagerBuilder) :
    List Event × Except GoError Unit :=
  if cfg.optLevel > 0 then
    let t : List Event :=
      [.goPassesRun goPassesBundle,
       .optimizeMaps, .optimizeStringToBytes, .optimizeAllocs,
       .lowerInterfaces, .lowerFuncValues,
       .goPassesRun goPassesBundle,
       .optimizeAllocs, .optimizeStringToBytes,
       .nilCheckLowering, .lowerGoroutines]
    match env.lowerGoroutinesErr with
    | some e => (t, .error e)
    | none =>
      let r := optimizeTail cfg env b
      (t ++ r.1, r.2)
  else
    let t : List Event := [.lowerInterfaces, .lowerFuncValues, .lowerGoroutines]
    match env.lowerGoroutinesErr with
    | some e => (t, .error e)
    | none =>
      let r := optimizeTail cfg env b
      (t ++ r.1, r.2)

/-- The pipeline orchestrator `(c *Compiler) Optimize`, as the trace of the
phases it runs and its returned `error`.

The behaviour of the optional leading gate on failure is
Modelled from the spec: `c.checkModule` (the `VerifyIR` gate) is not part of
this file's source; per §4.1/§7 any VerificationGate failure aborts the
pipeline immediately with a typed error. -/
def Optimize (cfg : Config) (env : Env) : List Event × Except GoError Unit :=
  let b := builderOf cfg
  let t0 : List Event :=
    if cfg.panicStrategy = "trap" then [.panicTrapRewriter] else []
  if cfg.verifyIR then
    if env.verifyIROk then
      let r := optimizeBody cfg env b
      (t0 ++ [.verificationGate .verifyIR, .functionPasses b] ++ r.1, r.2)
    else
      (t0 ++ [.verificationGate .verifyIR],
       .error (.new "verify-IR gate: module failed verification"))
  else
    let r := optimizeBody cfg env b
    (t0 ++ [.functionPasses b] ++ r.1, r.2)

/-- Whether a run result is a failure. -/
def isErr : Except GoError Unit → Bool
  | .error _ => true
  | .ok _ => false

/-- Events that are VerificationGate checkpoints or the one error-returning
collaborator (goroutine lowering): the only points at which `Optimize` can
stop with a failure. -/
def isAbortPoint : Event → Bool
  | .verificationGate _ => true
  | .lowerGoroutines => true
  | _ => false

/-- Events belonging to the whole-module generic bundle, the domain-specific
optimizers, or the lowering transforms (the step-5/step-6 phases of the
pipeline). -/
def isOptOrLoweringPhase : Event → Bool
  | .goPassesRun _ => true
  | .optimizeMaps => true
  | .optimizeStringToBytes => true
  | .optimizeAllocs => true
  | .lowerInterfaces => true
  | .lowerFuncValues => true
  | .nilCheckLowering => true
  | .lowerGoroutines => true
  | _ => false

/-- Instructions as far as `replacePanicsWithTrap` observes them: a direct
call to a named function, a use of a named function other than as the callee
of a direct call, a call to the `llvm.trap` intrinsic, or anything else. -/
inductive PInstr where
  | call (callee : String)
  | funcRef (name : String)
  | trap
  | other (k : Nat)
deriving DecidableEq, Repr

/-- The module as seen by `replacePanicsWithTrap`: the declared function
names (`c.mod.NamedFunction(name)` is non-nil exactly when `name` is
declared) and the instruction stream of the function bodies. -/
structure PModule where
  decls : List String
  body : List PInstr
deriving DecidableEq, Repr

/-- The inner loop of `replacePanicsWithTrap` for one failure-signaling
function: every use that is a direct call gets an unconditional `llvm.trap`
call inserted immediately before it (`SetInsertPointBefore(use)`;
`CreateCall(trap, nil, "")`) and is left in place; any use that is not a
direct call (`use.IsACallInst().IsNil() || use.CalledValue() != fn`) raises
the Go panic `"expected use of a panic function to be a call"`, modelled as
`Except.error` since a panic unwinds rather than returning an `error`. -/
def trapRewriteUses (name : String) : List PInstr → Except String (List PInstr)
  | [] => .ok []
  | .call callee :: rest =>
    match trapRewriteUses name rest with
    | .error e => .error e
    | .ok rest' =>
      if callee = name then .ok (.trap :: .call callee :: rest')
      else .ok (.call callee :: rest')
  | .funcRef n :: rest =>
    if n = name then .error "expected use of a panic function to be a call"
    else
      match trapRewriteUses name rest with
      | .error e => .error e
      | .ok rest' => .ok (.funcRef n :: rest')
  | .trap :: rest =>
    match trapRewriteUses name rest with
    | .error e => .error e
    | .ok rest' => .ok (.trap :: rest')
  | .other k :: rest =>
    match trapRewriteUses name rest with
    | .error e => .error e
    | .ok rest' => .ok (.other k :: rest')

/-- `(c *Compiler) replacePanicsWithTrap`: for each of `runtime._panic` and
`runtime.runtimePanic` in that order, skip it when it is not declared
(`fn.IsNil()` → `continue`), otherwise rewrite every one of its uses. -/
def replacePanicsWithTrapStep (mm : PModule) (name : String) :
    Except String PModule :=
  if name ∈ mm.decls then
    match trapRewriteUses name mm.body with
    | .error e => .error e
    | .ok b => .ok { mm with body := b }
  else .ok mm

/-- `(c *Compiler) replacePanicsWithTrap`, both failure-signaling functions. -/
def replacePanicsWithTrap (m : PModule) : Except String PModule :=
  match replacePanicsWithTrapStep m "runtime._panic" with
  | .error e => .error e
  | .ok m1 => replacePanicsWithTrapStep m1 "runtime.runtimePanic"

/-- Whether an instruction is a direct call to one of the two
failure-signaling functions. -/
def isPanicCall : PInstr → Bool
  | .call callee => callee = "runtime._panic" ∨ callee = "runtime.runtimePanic"
  | _ => false

/-- Function linkage as toggled by the finalizer loop. -/
inductive Linkage where
  | external
  | internal
  | other (k : Nat)
deriving DecidableEq, Repr

/-- A function as seen by the linkage-finalizer loop: its name, its linkage,
and its remaining contents (opaque, untouched by the loop). -/
structure FFunc where
  name : String
  linkage : Linkage
  contents : Nat
deriving DecidableEq, Repr

/-- A module as seen by the linkage-finalizer loop: its functions plus all
other module state (opaque, untouched by the loop). -/
structure FModule where
  funcs : List FFunc
  rest : Nat
deriving DecidableEq, Repr

/-- `fn := c.mod.NamedFunction(name); if fn.IsNil() continue;
fn.SetLinkage(llvm.InternalLinkage)`: set the linkage of the function of the
given name (the first match) to internal; absence changes nothing. -/
def setInternalByName (nm : String) : List FFunc → List FFunc
  | [] => []
  | f :: fs =>
    if f.name = nm then { f with linkage := .internal } :: fs
    else f :: setInternalByName nm fs

/-- The linkage-finalizer loop of `Optimize`, parameterized by the name list
`c.getFunctionsUsedInTransforms()`.
Modelled from the spec: the list's contents are produced outside this file's
source; per §4.5 it is "a known fixed list of such function names", so the
loop is verified for an arbitrary list. -/
def finalizeLinkage (names : List String) (m : FModule) : FModule :=
  names.foldl (fun acc nm => { acc with funcs := setInternalByName nm acc.funcs }) m

/-- An SSA value as the `runtime.isnil` lowering observes it: the result of
the instruction with a given id, a function argument, or the null pointer
constant created by `llvm.ConstPointerNull`. -/
inductive Value where
  | instr (id : Nat)
  | arg (n : Nat)
  | constNull
deriving DecidableEq, Repr

/-- Opcodes relevant to the `runtime.isnil` lowering: a call to
`runtime.isnil` (its single argument listed in `args`), a bitcast
(`IsABitCastInst`), an `icmp eq` against null as created by the lowering, or
any other instruction. -/
inductive Op where
  | callIsnil
  | bitcast
  | icmpEqNull
  | other (k : Nat)
deriving DecidableEq, Repr

/-- An instruction: opcode plus operand list. -/
structure Instr where
  op : Op
  args : List Value
deriving DecidableEq, Repr

/-- The module as seen by the `runtime.isnil` lowering loop: whether
`c.mod.NamedFunction("runtime.isnil")` is non-nil, the id supply for newly
created instructions (every existing id is below it), and the instructions
`(id, instruction)` in program order. -/
structure IRModule where
  isnilDeclared : Bool
  nextId : Nat
  instrs : List (Nat × Instr)
deriving DecidableEq, Repr

/-- Find the instruction with a given id. -/
def lookupInstr (m : IRModule) (id : Nat) : Option Instr :=
  m.instrs.lookup id

/-- `ptr := use.Operand(0); if !ptr.IsABitCastInst().IsNil() { ptr =
ptr.Operand(0) }`: unwrap exactly one layer of bitcast when the value is the
result of a bitcast instruction, otherwise keep the value. -/
def unwrapCast (m : IRModule) (v : Value) : Value :=
  match v with
  | .instr j =>
    match lookupInstr m j with
    | some ins => if ins.op = .bitcast then ins.args.headD v else v
    | none => v
  | _ => v

/-- `use.ReplaceAllUsesWith(icmp)` on a single operand value. -/
def replaceVal (oldId newId : Nat) (v : Value) : Value :=
  if v = .instr oldId then .instr newId else v

/-- One iteration of the `runtime.isnil` lowering loop on the call site with
id `callId` and pointer operand `p`: create `icmp eq ptr, null` at the call's
position (insertion immediately before the call followed by erasure of the
call), replace all uses of the call's result with the comparison's result,
and erase the call (`use.EraseFromParentAsInstruction()`). -/
def lowerOneIsnil (m : IRModule) (callId : Nat) (p : Value) : IRModule :=
  { isnilDeclared := m.isnilDeclared
    nextId := m.nextId + 1
    instrs := m.instrs.flatMap fun e =>
      if e.1 = callId then
        [(m.nextId, ⟨.icmpEqNull,
          [unwrapCast m p, .constNull].map (replaceVal callId m.nextId)⟩)]
      else
        [(e.1, ⟨e.2.op, e.2.args.map (replaceVal callId m.nextId)⟩)] }

/-- The ids of the call sites of `runtime.isnil` (`getUses(isnil)`), in
program order. -/
def isnilCallIds (m : IRModule) : List Nat :=
  (m.instrs.filter fun e => e.2.op = .callIsnil).map Prod.fst

/-- One iteration of the lowering loop: find the recorded call site by id
and rewrite it, reading its current pointer operand (`use.Operand(0)`) at
rewrite time. -/
def isnilStep (acc : IRModule) (id : Nat) : IRModule :=
  match lookupInstr acc id with
  | some ins => lowerOneIsnil acc id (ins.args.headD .constNull)
  | none => acc

/-- The `runtime.isnil` lowering loop of `Optimize`: when the helper is not
declared nothing happens; otherwise each call site collected by
`getUses(isnil)` is rewritten in turn. -/
def lowerIsnilCalls (m : IRModule) : IRModule :=
  if m.isnilDeclared then (isnilCallIds m).foldl isnilStep m else m

/-- Whether a value refers only to instruction ids below the id supply. -/
def valBelow (n : Nat) : Value → Bool
  | .instr j => j < n
  | _ => true

/-- Structural well-formedness of the module, as LLVM and the frontend
guarantee it at this point in the pipeline: instruction ids are distinct and
below the id supply, operands refer to ids below the id supply, every
`runtime.isnil` call has exactly one argument, and — since `runtime.isnil`
returns a boolean while `runtime.isnil` and bitcasts take pointer operands —
the result of a `runtime.isnil` call is never an operand of a
`runtime.isnil` call or of a bitcast. -/
abbrev WFModule (m : IRModule) : Prop :=
  (m.instrs.map Prod.fst).Nodup ∧
  (∀ e ∈ m.instrs, e.1 < m.nextId) ∧
  (∀ e ∈ m.instrs, ∀ v ∈ e.2.args, valBelow m.nextId v = true) ∧
  (∀ e ∈ m.instrs, e.2.op = .callIsnil → e.2.args.length = 1) ∧
  (∀ e ∈ m.instrs, e.2.op = .callIsnil →
    ∀ e2 ∈ m.instrs, (e2.2.op = .callIsnil ∨ e2.2.op = .bitcast) →
      Value.instr e.1 ∉ e2.2.args)

/-- Events of the two GC instrumentation steps. -/
def isGCStep : Event → Bool
  | .addGlobalsBitmap => true
  | .makeGCStackSlots => true
  | _ => false

/-- No optimizer/lowering phase occurs in the tail of the pipeline. -/
theorem filter_optimizeTail (cfg : Config) (env : Env) (b : PassManagerBuilder) :
    ((optimizeTail cfg env b).1).filter isOptOrLoweringPhase = [] := by
  unfold optimizeTail
  repeat' split
  all_goals simp [isOptOrLoweringPhase, List.filter_append]

/-- The optimizer/lowering phases of the `optLevel > 0` branch, in order. -/
theorem filter_optimizeBody_pos (cfg : Config) (env : Env) (b : PassManagerBuilder)
    (h : cfg.optLevel > 0) :
    ((optimizeBody cfg env b).1).filter isOptOrLoweringPhase =
      [.goPassesRun goPassesBundle, .optimizeMaps, .optimizeStringToBytes,
       .optimizeAllocs, .lowerInterfaces, .lowerFuncValues,
       .goPassesRun goPassesBundle, .optimizeAllocs, .optimizeStringToBytes,
       .nilCheckLowering, .lowerGoroutines] := by
  unfold optimizeBody
  rw [if_pos h]
  cases env.lowerGoroutinesErr <;>
    simp [isOptOrLoweringPhase, List.filter_append, filter_optimizeTail]

/-- The optimizer/lowering phases of the `optLevel <= 0` branch, in order. -/
theorem filter_optimizeBody_nonpos (cfg : Config) (env : Env) (b : PassManagerBuilder)
    (h : ¬ cfg.optLevel > 0) :
    ((optimizeBody cfg env b).1).filter isOptOrLoweringPhase =
      [.lowerInterfaces, .lowerFuncValues, .lowerGoroutines] := by
  unfold optimizeBody
  rw [if_neg h]
  cases env.lowerGoroutinesErr <;>
    simp [isOptOrLoweringPhase, List.filter_append, filter_optimizeTail]

/-- When the run reaches the optimization-level branch, the full trace is the
configuration-dependent prefix followed by the branch trace. -/
theorem optimize_trace_split (cfg : Config) (env : Env)
    (hreach : cfg.verifyIR = true → env.verifyIROk = true) :
    (Optimize cfg env).1 =
      ((if cfg.panicStrategy = "trap" then [Event.panicTrapRewriter] else [])
        ++ (if cfg.verifyIR then [Event.verificationGate .verifyIR] else [])
        ++ [Event.functionPasses (builderOf cfg)])
      ++ (optimizeBody cfg env (builderOf cfg)).1 ∧
    (Optimize cfg env).2 = (optimizeBody cfg env (builderOf cfg)).2 := by
  unfold Optimize
  by_cases hv : cfg.verifyIR
  · rw [if_pos hv, if_pos (hreach hv)]
    simp [hv]
  · rw [if_neg hv]
    simp [hv]

/-- An element satisfying the filter predicate that is not in the filtered
list is not in the list. -/
theorem not_mem_of_filter_eq {α : Type} {l out : List α} (p : α → Bool)
    (hf : l.filter p = out) (x : α) (hp : p x = true) (hx : x ∉ out) : x ∉ l := by
  intro hmem
  exact hx (hf ▸ List.mem_filter.2 ⟨hmem, hp⟩)

/-- Claim C1: at every `optLevel > 0` run that reaches the level branch (the
optional leading verify-IR gate passes), the optimizer/lowering phases
execute in exactly this order: the whole-module generic bundle (global
optimization, constant propagation, aggressive DCE, function attributes);
the map, string-to-bytes and alloc domain optimizers; interface
(dynamic-dispatch) lowering and func-value (closure) lowering; the same
generic bundle a second time; the alloc and string-to-bytes domain
optimizers a second time; nil-check lowering; and goroutine (task) lowering
last among all lowering transforms. -/
theorem optimize_phase_order_posLevel (cfg : Config) (env : Env)
    (h : cfg.optLevel > 0) (hreach : cfg.verifyIR = true → env.verifyIROk = true) :
    ((Optimize cfg env).1).filter isOptOrLoweringPhase =
      [.goPassesRun goPassesBundle, .optimizeMaps, .optimizeStringToBytes,
       .optimizeAllocs, .lowerInterfaces, .lowerFuncValues,
       .goPassesRun goPassesBundle, .optimizeAllocs, .optimizeStringToBytes,
       .nilCheckLowering, .lowerGoroutines] := by
  rw [(optimize_trace_split cfg env hreach).1, List.filter_append,
    filter_optimizeBody_pos cfg env _ h]
  by_cases hp : cfg.panicStrategy = "trap" <;> by_cases hv : cfg.verifyIR <;>
    simp [hp, hv, isOptOrLoweringPhase]

/-- Concrete run configuration used by the witnesses. -/
def cfgW : Config :=
  { optLevel := 2, sizeLevel := 2, inlinerThreshold := 225,
    panicStrategy := "trap", verifyIR := true }

/-- Concrete collaborator outcomes used by the witnesses. -/
def envW : Env :=
  { verifyIROk := true, lowerGoroutinesErr := none,
    verifyAfterLoweringOk := true, addGlobalsBitmapChanged := true,
    makeGCStackSlotsChanged := false, verifyAfterGCOk := true }

theorem optimize_phase_order_posLevel_witness :
    cfgW.optLevel > 0 ∧
    ((Optimize cfgW envW).1).filter isOptOrLoweringPhase =
      [.goPassesRun goPassesBundle, .optimizeMaps, .optimizeStringToBytes,
       .optimizeAllocs, .lowerInterfaces, .lowerFuncValues,
       .goPassesRun goPassesBundle, .optimizeAllocs, .optimizeStringToBytes,
       .nilCheckLowering, .lowerGoroutines] :=
  ⟨by decide, optimize_phase_order_posLevel cfgW envW (by decide) (fun _ => rfl)⟩

/-- Claim C2: at every `optLevel == 0` run that reaches the level branch,
`Optimize` runs interface (dynamic-dispatch) lowering, func-value (closure)
lowering and goroutine (task) lowering, in that order, and runs no generic
whole-module bundle, no domain-specific optimizer, and no nil-check lowering
(the `runtime.isnil` helper calls are left intact). -/
theorem optimize_phase_order_level0 (cfg : Config) (env : Env)
    (h : cfg.optLevel = 0) (hreach : cfg.verifyIR = true → env.verifyIROk = true) :
    ((Optimize cfg env).1).filter isOptOrLoweringPhase =
      [.lowerInterfaces, .lowerFuncValues, .lowerGoroutines] ∧
    Event.nilCheckLowering ∉ (Optimize cfg env).1 ∧
    (∀ ps, Event.goPassesRun ps ∉ (Optimize cfg env).1) ∧
    Event.optimizeMaps ∉ (Optimize cfg env).1 ∧
    Event.optimizeAllocs ∉ (Optimize cfg env).1 ∧
    Event.optimizeStringToBytes ∉ (Optimize cfg env).1 := by
  have hnp : ¬ cfg.optLevel > 0 := by omega
  have hf : ((Optimize cfg env).1).filter isOptOrLoweringPhase =
      [.lowerInterfaces, .lowerFuncValues, .lowerGoroutines] := by
    rw [(optimize_trace_split cfg env hreach).1, List.filter_append,
      filter_optimizeBody_nonpos cfg env _ hnp]
    by_cases hp : cfg.panicStrategy = "trap" <;> by_cases hv : cfg.verifyIR <;>
      simp [hp, hv, isOptOrLoweringPhase]
  refine ⟨hf, ?_, fun ps => ?_, ?_, ?_, ?_⟩ <;>
    exact not_mem_of_filter_eq _ hf _ (by simp [isOptOrLoweringPhase]) (by simp)

theorem optimize_phase_order_level0_witness :
    (cfgW.optLevel - 2 = 0) ∧
    Event.nilCheckLowering ∉ (Optimize { cfgW with optLevel := 0 } envW).1 :=
  ⟨by decide,
   (optimize_phase_order_level0 { cfgW with optLevel := 0 } envW rfl
      (fun _ => rfl)).2.1⟩

/-- The result of the pipeline tail: failure of the post-lowering gate, else
failure of the post-GC gate when some GC step changed the module, else
success. -/
theorem optimizeTail_result (cfg : Config) (env : Env) (b : PassManagerBuilder) :
    (optimizeTail cfg env b).2 =
      if env.verifyAfterLoweringOk = false then
        .error (.new "optimizations caused a verification failure")
      else if (env.addGlobalsBitmapChanged || env.makeGCStackSlotsChanged) = true then
        if env.verifyAfterGCOk = true then .ok ()
        else .error (.new "GC pass caused a verification failure")
      else .ok () := by
  unfold optimizeTail
  repeat' split
  all_goals simp_all

/-- The result of the level branch: a goroutine-lowering error is returned
unchanged, otherwise the tail decides the result. -/
theorem optimizeBody_result (cfg : Config) (env : Env) (b : PassManagerBuilder) :
    (optimizeBody cfg env b).2 =
      match env.lowerGoroutinesErr with
      | some e => .error e
      | none => (optimizeTail cfg env b).2 := by
  unfold optimizeBody
  split <;> cases env.lowerGoroutinesErr <;> simp

/-- When the tail fails, its last event is an abort point. -/
theorem optimizeTail_err_last (cfg : Config) (env : Env) (b : PassManagerBuilder)
    (e : GoError) :
    (optimizeTail cfg env b).2 = .error e →
    ∃ t ev, (optimizeTail cfg env b).1 = t ++ [ev] ∧ isAbortPoint ev = true := by
  unfold optimizeTail
  repeat' split
  all_goals intro h
  all_goals first
    | exact ⟨[], _, rfl, rfl⟩
    | exact ⟨_, _, rfl, rfl⟩
    | simp at h

/-- When the level branch fails, its last event is an abort point. -/
theorem optimizeBody_err_last (cfg : Config) (env : Env) (b : PassManagerBuilder)
    (e : GoError) :
    (optimizeBody cfg env b).2 = .error e →
    ∃ t ev, (optimizeBody cfg env b).1 = t ++ [ev] ∧ isAbortPoint ev = true := by
  unfold optimizeBody
  split
  all_goals cases hlg : env.lowerGoroutinesErr
  all_goals intro h
  · obtain ⟨t, ev, ht, hev⟩ := optimizeTail_err_last cfg env b e (by simpa using h)
    refine ⟨[Event.goPassesRun goPassesBundle, Event.optimizeMaps,
      Event.optimizeStringToBytes, Event.optimizeAllocs, Event.lowerInterfaces,
      Event.lowerFuncValues, Event.goPassesRun goPassesBundle, Event.optimizeAllocs,
      Event.optimizeStringToBytes, Event.nilCheckLowering, Event.lowerGoroutines] ++ t,
      ev, ?_, hev⟩
    simp [ht]
  · exact ⟨[Event.goPassesRun goPassesBundle, Event.optimizeMaps,
      Event.optimizeStringToBytes, Event.optimizeAllocs, Event.lowerInterfaces,
      Event.lowerFuncValues, Event.goPassesRun goPassesBundle, Event.optimizeAllocs,
      Event.optimizeStringToBytes, Event.nilCheckLowering], .lowerGoroutines,
      by simp, rfl⟩
  · obtain ⟨t, ev, ht, hev⟩ := optimizeTail_err_last cfg env b e (by simpa using h)
    refine ⟨[Event.lowerInterfaces, Event.lowerFuncValues, Event.lowerGoroutines] ++ t,
      ev, ?_, hev⟩
    simp [ht]
  · exact ⟨[Event.lowerInterfaces, Event.lowerFuncValues], .lowerGoroutines,
      by simp, rfl⟩

/-- The result of `Optimize` when the leading verify-IR gate fails.
Modelled from the spec: §4.1/§7, a VerificationGate failure aborts
immediately with a typed error. -/
theorem optimize_result_gateFail (cfg : Config) (env : Env)
    (hv : cfg.verifyIR = true) (ho : env.verifyIROk = false) :
    (Optimize cfg env) =
      ((if cfg.panicStrategy = "trap" then [Event.panicTrapRewriter] else [])
         ++ [Event.verificationGate .verifyIR],
       .error (.new "verify-IR gate: module failed verification")) := by
  unfold Optimize
  simp [hv, ho]

/-- Claim C3: `Optimize` fails exactly when a VerificationGate checkpoint
fails (the optional leading verify-IR gate, the post-lowering gate, or the
post-GC gate when a GC step changed the module) or goroutine (task) lowering
returns an error; on failure the failing checkpoint is the last phase the
run performs; and a goroutine-lowering error is propagated to the caller
unchanged. -/
theorem optimize_failure_contract (cfg : Config) (env : Env) :
    (isErr (Optimize cfg env).2 = true ↔
      ((cfg.verifyIR = true ∧ env.verifyIROk = false) ∨
       env.lowerGoroutinesErr ≠ none ∨
       env.verifyAfterLoweringOk = false ∨
       ((env.addGlobalsBitmapChanged || env.makeGCStackSlotsChanged) = true ∧
        env.verifyAfterGCOk = false))) ∧
    (∀ e, (Optimize cfg env).2 = .error e →
      ∃ t ev, (Optimize cfg env).1 = t ++ [ev] ∧ isAbortPoint ev = true) ∧
    (∀ e, env.lowerGoroutinesErr = some e →
      (cfg.verifyIR = true → env.verifyIROk = true) →
      (Optimize cfg env).2 = .error e) := by
  by_cases hv : cfg.verifyIR = true
  · by_cases ho : env.verifyIROk = true
    · have hs := optimize_trace_split cfg env (fun _ => ho)
      refine ⟨?_, ?_, ?_⟩
      · rw [hs.2, optimizeBody_result, optimizeTail_result]
        cases hlg : env.lowerGoroutinesErr <;>
          by_cases h1 : env.verifyAfterLoweringOk = false <;>
          by_cases h2 : (env.addGlobalsBitmapChanged ||
            env.makeGCStackSlotsChanged) = true <;>
          by_cases h3 : env.verifyAfterGCOk = true <;>
          simp_all [isErr]
      · intro e he
        rw [hs.2] at he
        obtain ⟨t, ev, ht, hev⟩ := optimizeBody_err_last cfg env (builderOf cfg) e he
        exact ⟨_, ev, by rw [hs.1, ht, ← List.append_assoc], hev⟩
      · intro e hlg _
        rw [hs.2, optimizeBody_result, hlg]
    · have ho' : env.verifyIROk = false := by
        cases h : env.verifyIROk <;> simp_all
      refine ⟨?_, ?_, ?_⟩
      · rw [optimize_result_gateFail cfg env hv ho']
        simp [isErr, hv, ho']
      · intro e _
        rw [optimize_result_gateFail cfg env hv ho']
        exact ⟨_, .verificationGate .verifyIR, rfl, rfl⟩
      · intro e _ hre
        exact absurd (hre hv) (by simp [ho'])
  · have hs := optimize_trace_split cfg env (fun h => absurd h hv)
    refine ⟨?_, ?_, ?_⟩
    · rw [hs.2, optimizeBody_result, optimizeTail_result]
      cases hlg : env.lowerGoroutinesErr <;>
        by_cases h1 : env.verifyAfterLoweringOk = false <;>
        by_cases h2 : (env.addGlobalsBitmapChanged ||
          env.makeGCStackSlotsChanged) = true <;>
        by_cases h3 : env.verifyAfterGCOk = true <;>
        simp_all [isErr]
    · intro e he
      rw [hs.2] at he
      obtain ⟨t, ev, ht, hev⟩ := optimizeBody_err_last cfg env (builderOf cfg) e he
      exact ⟨_, ev, by rw [hs.1, ht, ← List.append_assoc], hev⟩
    · intro e hlg _
      rw [hs.2, optimizeBody_result, hlg]

theorem optimize_failure_contract_witness :
    (Optimize cfgW { envW with lowerGoroutinesErr := some (.external 7) }).2 =
      .error (.external 7) :=
  (optimize_failure_contract cfgW
    { envW with lowerGoroutinesErr := some (.external 7) }).2.2
    (.external 7) rfl (fun _ => rfl)

/-- The trace of the pipeline tail: the post-lowering gate, then — when it
passes — optional size tagging, the linkage finalizer, the second
function-pass run, the module passes, the two GC steps, and the post-GC gate
when a GC step changed the module. -/
theorem optimizeTail_trace (cfg : Config) (env : Env) (b : PassManagerBuilder) :
    (optimizeTail cfg env b).1 =
      [Event.verificationGate .postLowering]
      ++ (if env.verifyAfterLoweringOk = false then [] else
          (if cfg.sizeLevel ≥ 2 then [Event.sizeAttributeTagging] else [])
          ++ [Event.linkageFinalizer, Event.functionPasses b,
              Event.modulePasses b, Event.addGlobalsBitmap,
              Event.makeGCStackSlots]
          ++ (if (env.addGlobalsBitmapChanged || env.makeGCStackSlotsChanged) = true
              then [Event.verificationGate .postGC] else [])) := by
  unfold optimizeTail
  repeat' split
  all_goals simp_all

/-- The trace of the level branch: the level-dependent phase list, then the
tail unless goroutine lowering failed. -/
theorem optimizeBody_trace (cfg : Config) (env : Env) (b : PassManagerBuilder) :
    (optimizeBody cfg env b).1 =
      (if cfg.optLevel > 0 then
        [Event.goPassesRun goPassesBundle, Event.optimizeMaps,
         Event.optimizeStringToBytes, Event.optimizeAllocs,
         Event.lowerInterfaces, Event.lowerFuncValues,
         Event.goPassesRun goPassesBundle, Event.optimizeAllocs,
         Event.optimizeStringToBytes, Event.nilCheckLowering,
         Event.lowerGoroutines]
       else [Event.lowerInterfaces, Event.lowerFuncValues, Event.lowerGoroutines])
      ++ (match env.lowerGoroutinesErr with
          | some _ => []
          | none => (optimizeTail cfg env b).1) := by
  unfold optimizeBody
  split <;> cases env.lowerGoroutinesErr <;> simp

/-- Claim C6: when the run reaches the tail and the post-lowering gate
passes, both GC instrumentation steps run, exactly once each and in order
(global-root bitmap first, then GC stack slots); the post-GC verification
gate runs exactly when at least one of them reported a change; its failure
surfaces the distinct GC-phase error message; and that message differs from
the post-lowering one. -/
theorem gc_instrumentation_contract (cfg : Config) (env : Env)
    (hreach : cfg.verifyIR = true → env.verifyIROk = true)
    (hlg : env.lowerGoroutinesErr = none)
    (hvok : env.verifyAfterLoweringOk = true) :
    ((Optimize cfg env).1).filter isGCStep =
      [Event.addGlobalsBitmap, Event.makeGCStackSlots] ∧
    (Event.verificationGate .postGC ∈ (Optimize cfg env).1 ↔
      (env.addGlobalsBitmapChanged || env.makeGCStackSlotsChanged) = true) ∧
    ((env.addGlobalsBitmapChanged || env.makeGCStackSlotsChanged) = true →
      env.verifyAfterGCOk = false →
      (Optimize cfg env).2 = .error (.new "GC pass caused a verification failure")) ∧
    GoError.new "GC pass caused a verification failure" ≠
      GoError.new "optimizations caused a verification failure" := by
  have hs := optimize_trace_split cfg env hreach
  refine ⟨?_, ?_, ?_, by decide⟩
  · rw [hs.1, optimizeBody_trace, optimizeTail_trace, hlg]
    repeat' split
    all_goals simp_all [isGCStep, List.filter_append]
  · rw [hs.1, optimizeBody_trace, optimizeTail_trace, hlg]
    repeat' split
    all_goals simp_all
  · intro hch hgc
    rw [hs.2, optimizeBody_result, hlg, optimizeTail_result]
    simp [hvok, hch, hgc]

theorem gc_instrumentation_contract_witness :
    ((Optimize cfgW envW).1).filter isGCStep =
      [Event.addGlobalsBitmap, Event.makeGCStackSlots] ∧
    (Optimize cfgW { envW with verifyAfterGCOk := false }).2 =
      .error (.new "GC pass caused a verification failure") :=
  ⟨(gc_instrumentation_contract cfgW envW (fun _ => rfl) rfl rfl).1,
   (gc_instrumentation_contract cfgW { envW with verifyAfterGCOk := false }
      (fun _ => rfl) rfl rfl).2.2.1 rfl rfl⟩

/-- Every function-pass or module-pass run in the trace uses the pass-manager
builder configured at the top of `Optimize`. -/
theorem optimize_passManager_events (cfg : Config) (env : Env) (b : PassManagerBuilder)
    (hb : Event.functionPasses b ∈ (Optimize cfg env).1 ∨
          Event.modulePasses b ∈ (Optimize cfg env).1) : b = builderOf cfg := by
  by_cases hv : cfg.verifyIR = true
  · by_cases ho : env.verifyIROk = true
    · rw [(optimize_trace_split cfg env (fun _ => ho)).1, optimizeBody_trace,
        optimizeTail_trace] at hb
      cases env.lowerGoroutinesErr <;>
        repeat' split at hb
      all_goals simp_all
    · have ho' : env.verifyIROk = false := by cases h : env.verifyIROk <;> simp_all
      rw [congrArg Prod.fst (optimize_result_gateFail cfg env hv ho')] at hb
      by_cases h1 : cfg.panicStrategy = "trap" <;> simp_all
  · rw [(optimize_trace_split cfg env (fun h => absurd h hv)).1, optimizeBody_trace,
      optimizeTail_trace] at hb
    cases env.lowerGoroutinesErr <;>
      repeat' split at hb
    all_goals simp_all

/-- Claim C7: `inlinerThreshold == 0` leaves the inliner disabled in the
builder-configured generic-pass batch regardless of any other configuration,
any nonzero threshold enables inlining at exactly that cost threshold, and
every function-pass and module-pass run in any run's trace uses that builder
configuration. -/
theorem inliner_threshold_contract (cfg : Config) (env : Env) :
    ((builderOf cfg).inliner = none ↔ cfg.inlinerThreshold = 0) ∧
    (cfg.inlinerThreshold ≠ 0 → (builderOf cfg).inliner = some cfg.inlinerThreshold) ∧
    (∀ b, Event.functionPasses b ∈ (Optimize cfg env).1 → b = builderOf cfg) ∧
    (∀ b, Event.modulePasses b ∈ (Optimize cfg env).1 → b = builderOf cfg) := by
  refine ⟨?_, ?_, fun b hb => optimize_passManager_events cfg env b (.inl hb),
    fun b hb => optimize_passManager_events cfg env b (.inr hb)⟩
  · by_cases h0 : cfg.inlinerThreshold = 0 <;> simp [builderOf, h0]
  · intro h0
    simp [builderOf, h0]

theorem inliner_threshold_contract_witness :
    (builderOf cfgW).inliner = some 225 ∧
    (builderOf { cfgW with inlinerThreshold := 0 }).inliner = none :=
  ⟨(inliner_threshold_contract cfgW envW).2.1 (by decide),
   (inliner_threshold_contract { cfgW with inlinerThreshold := 0 } envW).1.mpr rfl⟩

/-- Events of the generic whole-module bundle, the three domain-specific
optimizers, and nil-check lowering. -/
def isBundleOrDomainPhase : Event → Bool
  | .goPassesRun _ => true
  | .optimizeMaps => true
  | .optimizeStringToBytes => true
  | .optimizeAllocs => true
  | .nilCheckLowering => true
  | _ => false

/-- Occurrence counts are unchanged by filtering with a predicate the element
satisfies. -/
theorem count_filter_eq_count {α : Type} [DecidableEq α] (p : α → Bool) (x : α)
    (hp : p x = true) : ∀ l : List α, (l.filter p).count x = l.count x := by
  intro l
  induction l with
  | nil => rfl
  | cons a l ih =>
    by_cases ha : p a = true
    · simp [List.filter_cons, ha, List.count_cons, ih]
    · have hax : a ≠ x := fun hh => ha (hh ▸ hp)
      simp [List.filter_cons, ha, List.count_cons, ih, hax]

/-- Claim C9: at `optLevel > 0`, the first domain-specific run (after the
first generic bundle) invokes the map, string-to-bytes and alloc optimizers,
while the second domain-specific run (after the second generic bundle and
before nil-check lowering) invokes only the alloc optimizer and then the
string-to-bytes optimizer; the map optimizer runs exactly once in the whole
trace. -/
theorem second_domain_opt_run_contract (cfg : Config) (env : Env)
    (h : cfg.optLevel > 0) (hreach : cfg.verifyIR = true → env.verifyIROk = true) :
    ((Optimize cfg env).1).filter isBundleOrDomainPhase =
      [.goPassesRun goPassesBundle, .optimizeMaps, .optimizeStringToBytes,
       .optimizeAllocs, .goPassesRun goPassesBundle, .optimizeAllocs,
       .optimizeStringToBytes, .nilCheckLowering] ∧
    ((Optimize cfg env).1).count Event.optimizeMaps = 1 := by
  have htail : ((optimizeTail cfg env (builderOf cfg)).1).filter
      isBundleOrDomainPhase = [] := by
    rw [optimizeTail_trace]
    repeat' split
    all_goals simp [isBundleOrDomainPhase, List.filter_append]
  have hf : ((Optimize cfg env).1).filter isBundleOrDomainPhase =
      [.goPassesRun goPassesBundle, .optimizeMaps, .optimizeStringToBytes,
       .optimizeAllocs, .goPassesRun goPassesBundle, .optimizeAllocs,
       .optimizeStringToBytes, .nilCheckLowering] := by
    rw [(optimize_trace_split cfg env hreach).1, optimizeBody_trace, if_pos h]
    cases env.lowerGoroutinesErr <;>
      by_cases h1 : cfg.panicStrategy = "trap" <;>
      by_cases h2 : cfg.verifyIR = true <;>
      simp_all [isBundleOrDomainPhase, List.filter_append, htail]
  refine ⟨hf, ?_⟩
  have hc := count_filter_eq_count isBundleOrDomainPhase Event.optimizeMaps rfl
    (Optimize cfg env).1
  rw [hf] at hc
  rw [← hc]
  decide

theorem second_domain_opt_run_contract_witness :
    ((Optimize cfgW envW).1).count Event.optimizeMaps = 1 :=
  (second_domain_opt_run_contract cfgW envW (by decide) (fun _ => rfl)).2

/-- Insert an unconditional trap immediately before every direct call to a
failure-signaling function, leaving the call in place. -/
def insertTraps (body : List PInstr) : List PInstr :=
  body.flatMap fun i => if isPanicCall i then [.trap, i] else [i]

/-- One trap-insertion function restricted to a single callee name. -/
def insertTrapsFor (name : String) (body : List PInstr) : List PInstr :=
  body.flatMap fun i =>
    match i with
    | .call callee => if callee = name then [.trap, i] else [i]
    | _ => [i]

/-- On a body with no non-call use of the function, the use rewrite succeeds
and inserts a trap before each direct call to it. -/
theorem trapRewriteUses_ok (name : String) : ∀ body : List PInstr,
    PInstr.funcRef name ∉ body →
    trapRewriteUses name body = .ok (insertTrapsFor name body) := by
  intro body
  induction body with
  | nil => intro _; rfl
  | cons i rest ih =>
    intro h
    have hrest : PInstr.funcRef name ∉ rest := fun hr => h (List.mem_cons_of_mem _ hr)
    cases i with
    | call callee =>
      simp only [trapRewriteUses, ih hrest]
      by_cases hc : callee = name <;>
        simp [hc, insertTrapsFor, List.flatMap_cons]
    | funcRef n =>
      have hn : ¬ n = name := fun he => h (by simp [he])
      simp only [trapRewriteUses, if_neg hn, ih hrest]
      simp [insertTrapsFor, List.flatMap_cons]
    | trap =>
      simp only [trapRewriteUses, ih hrest]
      simp [insertTrapsFor, List.flatMap_cons]
    | other k =>
      simp only [trapRewriteUses, ih hrest]
      simp [insertTrapsFor, List.flatMap_cons]

/-- A non-call use of the function makes the use rewrite raise the Go panic. -/
theorem trapRewriteUses_err (name : String) : ∀ body : List PInstr,
    PInstr.funcRef name ∈ body →
    trapRewriteUses name body =
      .error "expected use of a panic function to be a call" := by
  intro body
  induction body with
  | nil => intro h; exact absurd h (List.not_mem_nil _)
  | cons i rest ih =>
    intro h
    cases i with
    | call callee =>
      have hr : PInstr.funcRef name ∈ rest := by
        rcases List.mem_cons.1 h with h1 | h1
        · exact absurd h1 (by simp)
        · exact h1
      simp only [trapRewriteUses, ih hr]
    | funcRef n =>
      by_cases hn : n = name
      · simp only [trapRewriteUses, if_pos hn]
      · have hr : PInstr.funcRef name ∈ rest := by
          rcases List.mem_cons.1 h with h1 | h1
          · exact absurd h1 (by simp [hn]; exact fun hh => hn hh.symm)
          · exact h1
        simp only [trapRewriteUses, if_neg hn, ih hr]
    | trap =>
      have hr : PInstr.funcRef name ∈ rest := by
        rcases List.mem_cons.1 h with h1 | h1
        · exact absurd h1 (by simp)
        · exact h1
      simp only [trapRewriteUses, ih hr]
    | other k =>
      have hr : PInstr.funcRef name ∈ rest := by
        rcases List.mem_cons.1 h with h1 | h1
        · exact absurd h1 (by simp)
        · exact h1
      simp only [trapRewriteUses, ih hr]

/-- The only error the use rewrite can produce is the Go panic message. -/
theorem trapRewriteUses_err_msg (name : String) : ∀ (body : List PInstr) (e : String),
    trapRewriteUses name body = .error e →
    e = "expected use of a panic function to be a call" := by
  intro body
  induction body with
  | nil => intro e he; simp [trapRewriteUses] at he
  | cons i rest ih =>
    intro e he
    cases i with
    | call callee =>
      rw [trapRewriteUses] at he
      cases hr : trapRewriteUses name rest with
      | error e' =>
        rw [hr] at he
        cases he
        exact ih _ hr
      | ok b =>
        rw [hr] at he
        by_cases hc : callee = name <;> simp [hc] at he
    | funcRef n =>
      rw [trapRewriteUses] at he
      by_cases hn : n = name
      · rw [if_pos hn] at he
        cases he
        rfl
      · rw [if_neg hn] at he
        cases hr : trapRewriteUses name rest with
        | error e' =>
          rw [hr] at he
          cases he
          exact ih _ hr
        | ok b =>
          rw [hr] at he
          simp at he
    | trap =>
      rw [trapRewriteUses] at he
      cases hr : trapRewriteUses name rest with
      | error e' =>
        rw [hr] at he
        cases he
        exact ih _ hr
      | ok b =>
        rw [hr] at he
        simp at he
    | other k =>
      rw [trapRewriteUses] at he
      cases hr : trapRewriteUses name rest with
      | error e' =>
        rw [hr] at he
        cases he
        exact ih _ hr
      | ok b =>
        rw [hr] at he
        simp at he

/-- Single-name trap insertion preserves non-call uses of other names. -/
theorem funcRef_mem_insertTrapsFor (name n : String) (body : List PInstr) :
    PInstr.funcRef n ∈ insertTrapsFor name body ↔ PInstr.funcRef n ∈ body := by
  unfold insertTrapsFor
  rw [List.mem_flatMap]
  constructor
  · rintro ⟨i, hi, hmem⟩
    cases i with
    | call callee =>
      by_cases hc : callee = name <;> simp [hc] at hmem
    | funcRef nn =>
      simp at hmem
      exact hmem ▸ hi
    | trap => simp at hmem
    | other k => simp at hmem
  · intro hmem
    exact ⟨.funcRef n, hmem, by simp⟩

/-- Inserting traps for the two names one after the other inserts a trap
before every call to either. -/
theorem insertTrapsFor_both (body : List PInstr) :
    insertTrapsFor "runtime.runtimePanic"
      (insertTrapsFor "runtime._panic" body) = insertTraps body := by
  induction body with
  | nil => rfl
  | cons i rest ih =>
    cases i with
    | call callee =>
      by_cases h1 : callee = "runtime._panic"
      · simp [insertTrapsFor, insertTraps, List.flatMap_cons, h1, isPanicCall] at ih ⊢
        exact ih
      · by_cases h2 : callee = "runtime.runtimePanic" <;>
          simp [insertTrapsFor, insertTraps, List.flatMap_cons, h1, h2, isPanicCall] at ih ⊢ <;>
          exact ih
    | funcRef n =>
      simp [insertTrapsFor, insertTraps, List.flatMap_cons, isPanicCall] at ih ⊢
      exact ih
    | trap =>
      simp [insertTrapsFor, insertTraps, List.flatMap_cons, isPanicCall] at ih ⊢
      exact ih
    | other k =>
      simp [insertTrapsFor, insertTraps, List.flatMap_cons, isPanicCall] at ih ⊢
      exact ih

/-- A successful use rewrite returns exactly the trap-inserted body. -/
theorem trapRewriteUses_ok_eq (name : String) : ∀ body b,
    trapRewriteUses name body = .ok b → b = insertTrapsFor name body := by
  intro body
  induction body with
  | nil =>
    intro b hb
    cases hb
    rfl
  | cons i rest ih =>
    intro b hb
    cases i with
    | call callee =>
      rw [trapRewriteUses] at hb
      cases hr : trapRewriteUses name rest with
      | error e => rw [hr] at hb; cases hb
      | ok rest' =>
        rw [hr] at hb
        by_cases hc : callee = name <;> simp [hc] at hb <;> subst hb <;>
          simp [insertTrapsFor, List.flatMap_cons, hc, ih _ hr]
    | funcRef n =>
      rw [trapRewriteUses] at hb
      by_cases hn : n = name
      · rw [if_pos hn] at hb; cases hb
      · rw [if_neg hn] at hb
        cases hr : trapRewriteUses name rest with
        | error e => rw [hr] at hb; cases hb
        | ok rest' =>
          rw [hr] at hb
          cases hb
          simp [insertTrapsFor, List.flatMap_cons, ih _ hr]
    | trap =>
      rw [trapRewriteUses] at hb
      cases hr : trapRewriteUses name rest with
      | error e => rw [hr] at hb; cases hb
      | ok rest' =>
        rw [hr] at hb
        cases hb
        simp [insertTrapsFor, List.flatMap_cons, ih _ hr]
    | other k =>
      rw [trapRewriteUses] at hb
      cases hr : trapRewriteUses name rest with
      | error e => rw [hr] at hb; cases hb
      | ok rest' =>
        rw [hr] at hb
        cases hb
        simp [insertTrapsFor, List.flatMap_cons, ih _ hr]

/-- Trap insertion introduces no new direct calls. -/
theorem call_mem_insertTrapsFor (name c : String) (body : List PInstr) :
    PInstr.call c ∈ insertTrapsFor name body → PInstr.call c ∈ body := by
  unfold insertTrapsFor
  rw [List.mem_flatMap]
  rintro ⟨i, hi, hmem⟩
  cases i with
  | call callee =>
    by_cases hc : callee = name <;> simp [hc] at hmem <;> rw [hmem] <;>
      first
      | exact hi
      | exact hc ▸ hi
  | funcRef nn => simp at hmem
  | trap => simp at hmem
  | other k => simp at hmem

/-- Trap insertion for a function the body never calls changes nothing. -/
theorem insertTrapsFor_id (name : String) : ∀ body : List PInstr,
    PInstr.call name ∉ body → insertTrapsFor name body = body := by
  intro body
  induction body with
  | nil => intro _; rfl
  | cons i rest ih =>
    intro h
    have hrest : PInstr.call name ∉ rest := fun hr => h (List.mem_cons_of_mem _ hr)
    cases i with
    | call callee =>
      have hc : ¬ callee = name := fun he => h (by simp [he])
      simp [insertTrapsFor, List.flatMap_cons, hc] at ih ⊢
      exact ih hrest
    | funcRef n =>
      simp [insertTrapsFor, List.flatMap_cons] at ih ⊢
      exact ih hrest
    | trap =>
      simp [insertTrapsFor, List.flatMap_cons] at ih ⊢
      exact ih hrest
    | other k =>
      simp [insertTrapsFor, List.flatMap_cons] at ih ⊢
      exact ih hrest

/-- A successful per-name rewrite step keeps the declaration list. -/
theorem replacePanicsWithTrapStep_decls (m m1 : PModule) (name : String)
    (h : replacePanicsWithTrapStep m name = .ok m1) : m1.decls = m.decls := by
  unfold replacePanicsWithTrapStep at h
  by_cases hd : name ∈ m.decls
  · rw [if_pos hd] at h
    cases hr : trapRewriteUses name m.body with
    | error e => rw [hr] at h; cases h
    | ok b => rw [hr] at h; cases h; rfl
  · rw [if_neg hd] at h
    cases h
    rfl

/-- Claim C5: under the `trap` panic strategy the panic-trap rewriter is the
very first phase of the run; on a module in which every use of
`runtime._panic` and `runtime.runtimePanic` is a direct call (and calls are
to declared functions), the rewriter succeeds and returns exactly the
original body with an unconditional trap inserted immediately before each
call to either function, leaving those calls in place; and a use of a
declared failure-signaling function that is not a direct call raises the Go
panic (a fatal internal fault, not a returned error). -/
theorem panic_trap_rewriter_contract (cfg : Config) (env : Env) (m : PModule) :
    (cfg.panicStrategy = "trap" →
      ((Optimize cfg env).1).head? = some Event.panicTrapRewriter) ∧
    ((PInstr.funcRef "runtime._panic" ∉ m.body ∧
      PInstr.funcRef "runtime.runtimePanic" ∉ m.body ∧
      (PInstr.call "runtime._panic" ∈ m.body → "runtime._panic" ∈ m.decls) ∧
      (PInstr.call "runtime.runtimePanic" ∈ m.body →
        "runtime.runtimePanic" ∈ m.decls)) →
      replacePanicsWithTrap m = .ok { m with body := insertTraps m.body }) ∧
    (∀ n, n ∈ m.decls → PInstr.funcRef n ∈ m.body →
      (n = "runtime._panic" ∨ n = "runtime.runtimePanic") →
      replacePanicsWithTrap m =
        .error "expected use of a panic function to be a call") := by
  refine ⟨?_, ?_, ?_⟩
  · intro hp
    unfold Optimize
    by_cases hv : cfg.verifyIR <;> by_cases ho : env.verifyIROk = true <;>
      simp_all
  · rintro ⟨h1, h2, hc1, hc2⟩
    have hins : insertTraps m.body =
        insertTrapsFor "runtime.runtimePanic"
          (insertTrapsFor "runtime._panic" m.body) :=
      (insertTrapsFor_both m.body).symm
    unfold replacePanicsWithTrap replacePanicsWithTrapStep
    by_cases hd1 : "runtime._panic" ∈ m.decls
    · rw [if_pos hd1, trapRewriteUses_ok _ _ h1]
      by_cases hd2 : "runtime.runtimePanic" ∈ m.decls
      · simp only [if_pos hd2]
        rw [trapRewriteUses_ok _ _
          (fun hf => h2 ((funcRef_mem_insertTrapsFor _ _ _).1 hf))]
        rw [hins]
      · simp only [if_neg hd2]
        have hnc : PInstr.call "runtime.runtimePanic" ∉
            insertTrapsFor "runtime._panic" m.body :=
          fun hf => hd2 (hc2 (call_mem_insertTrapsFor _ _ _ hf))
        rw [hins, insertTrapsFor_id _ _ hnc]
    · rw [if_neg hd1]
      have hnc1 : PInstr.call "runtime._panic" ∉ m.body := fun hf => hd1 (hc1 hf)
      rw [insertTrapsFor_id _ _ hnc1] at hins
      by_cases hd2 : "runtime.runtimePanic" ∈ m.decls
      · simp only [if_pos hd2]
        rw [trapRewriteUses_ok _ _ h2, hins]
      · simp only [if_neg hd2]
        rw [hins, insertTrapsFor_id _ _ (fun hf => hd2 (hc2 hf))]
  · intro n hdecln hmem hn
    rcases hn with hn | hn
    · subst hn
      unfold replacePanicsWithTrap replacePanicsWithTrapStep
      rw [if_pos hdecln, trapRewriteUses_err _ _ hmem]
    · subst hn
      unfold replacePanicsWithTrap
      cases h1 : replacePanicsWithTrapStep m "runtime._panic" with
      | error e =>
        have he : e = "expected use of a panic function to be a call" := by
          unfold replacePanicsWithTrapStep at h1
          by_cases hd : "runtime._panic" ∈ m.decls
          · rw [if_pos hd] at h1
            cases hr : trapRewriteUses "runtime._panic" m.body with
            | error e2 =>
              rw [hr] at h1
              cases h1
              exact trapRewriteUses_err_msg _ _ _ hr
            | ok b => rw [hr] at h1; cases h1
          · rw [if_neg hd] at h1; cases h1
        rw [he]
      | ok m1 =>
        have hdecls : m1.decls = m.decls := replacePanicsWithTrapStep_decls _ _ _ h1
        have hmem1 : PInstr.funcRef "runtime.runtimePanic" ∈ m1.body := by
          unfold replacePanicsWithTrapStep at h1
          by_cases hd : "runtime._panic" ∈ m.decls
          · rw [if_pos hd] at h1
            cases hr : trapRewriteUses "runtime._panic" m.body with
            | error e2 => rw [hr] at h1; cases h1
            | ok b =>
              rw [hr] at h1
              cases h1
              show PInstr.funcRef "runtime.runtimePanic" ∈ b
              rw [trapRewriteUses_ok_eq _ _ _ hr]
              exact (funcRef_mem_insertTrapsFor _ _ _).2 hmem
          · rw [if_neg hd] at h1
            cases h1
            exact hmem
        show replacePanicsWithTrapStep m1 "runtime.runtimePanic" =
          .error "expected use of a panic function to be a call"
        unfold replacePanicsWithTrapStep
        rw [if_pos (hdecls ▸ hdecln), trapRewriteUses_err _ _ hmem1]

/-- Concrete module used by the panic-trap witness. -/
def pmW : PModule :=
  { decls := ["runtime._panic", "runtime.runtimePanic", "main"]
    body := [.other 0, .call "runtime._panic", .call "main",
             .call "runtime.runtimePanic"] }

theorem panic_trap_rewriter_contract_witness :
    ((Optimize cfgW envW).1).head? = some Event.panicTrapRewriter ∧
    replacePanicsWithTrap pmW =
      .ok { pmW with body := [.other 0, .trap, .call "runtime._panic",
        .call "main", .trap, .call "runtime.runtimePanic"] } :=
  ⟨(panic_trap_rewriter_contract cfgW envW pmW).1 rfl,
   (panic_trap_rewriter_contract cfgW envW pmW).2.1
     (by refine ⟨by decide, by decide, ?_, ?_⟩ <;> intro h <;> decide)⟩

/-- Claim C10: an absent failure-signaling function is skipped by the
rewriter: with both `runtime._panic` and `runtime.runtimePanic` undeclared
the rewriter returns the module unchanged, and with exactly one undeclared
the result is that of processing the other alone. -/
theorem panic_trap_absent_noop (m : PModule) :
    (("runtime._panic" ∉ m.decls ∧ "runtime.runtimePanic" ∉ m.decls) →
      replacePanicsWithTrap m = .ok m) ∧
    ("runtime._panic" ∉ m.decls →
      replacePanicsWithTrap m = replacePanicsWithTrapStep m "runtime.runtimePanic") ∧
    ("runtime.runtimePanic" ∉ m.decls →
      replacePanicsWithTrap m = replacePanicsWithTrapStep m "runtime._panic") := by
  refine ⟨?_, ?_, ?_⟩
  · rintro ⟨h1, h2⟩
    have hs1 : replacePanicsWithTrapStep m "runtime._panic" = .ok m := by
      unfold replacePanicsWithTrapStep
      rw [if_neg h1]
    have hs2 : replacePanicsWithTrapStep m "runtime.runtimePanic" = .ok m := by
      unfold replacePanicsWithTrapStep
      rw [if_neg h2]
    unfold replacePanicsWithTrap
    rw [hs1]
    exact hs2
  · intro h1
    unfold replacePanicsWithTrap
    have hs : replacePanicsWithTrapStep m "runtime._panic" = .ok m := by
      unfold replacePanicsWithTrapStep
      rw [if_neg h1]
    rw [hs]
  · intro h2
    unfold replacePanicsWithTrap
    cases h1 : replacePanicsWithTrapStep m "runtime._panic" with
    | error e => rfl
    | ok m1 =>
      have hd := replacePanicsWithTrapStep_decls _ _ _ h1
      show replacePanicsWithTrapStep m1 "runtime.runtimePanic" = Except.ok m1
      unfold replacePanicsWithTrapStep
      rw [if_neg (hd ▸ h2)]

theorem panic_trap_absent_noop_witness :
    replacePanicsWithTrap { decls := ["main"], body := [.call "main", .other 3] } =
      .ok { decls := ["main"], body := [.call "main", .other 3] } :=
  (panic_trap_absent_noop
    { decls := ["main"], body := [.call "main", .other 3] }).1
    ⟨by decide, by decide⟩

/-- Setting one function's linkage never changes any function's name. -/
theorem setInternalByName_names (nm : String) : ∀ fs : List FFunc,
    (setInternalByName nm fs).map FFunc.name = fs.map FFunc.name := by
  intro fs
  induction fs with
  | nil => rfl
  | cons f fs ih =>
    by_cases h : f.name = nm <;> simp [setInternalByName, h, ih]

/-- With distinct function names, finding the named function and setting its
linkage is a pointwise update. -/
theorem setInternalByName_eq_map (nm : String) : ∀ fs : List FFunc,
    (fs.map FFunc.name).Nodup →
    setInternalByName nm fs =
      fs.map (fun f => if f.name = nm then { f with linkage := .internal } else f) := by
  intro fs
  induction fs with
  | nil => intro _; rfl
  | cons f fs ih =>
    intro hnd
    rw [List.map_cons, List.nodup_cons] at hnd
    by_cases h : f.name = nm
    · have hrest : ∀ g ∈ fs, (if g.name = nm then
          { g with linkage := Linkage.internal } else g) = g := by
        intro g hg
        rw [if_neg]
        intro hgnm
        exact hnd.1 (by rw [← h] at hgnm; exact hgnm ▸ List.mem_map_of_mem FFunc.name hg)
      simp only [setInternalByName, if_pos h, List.map_cons, if_pos h]
      rw [List.map_congr_left hrest]
      simp
    · simp only [setInternalByName, if_neg h, List.map_cons, if_neg h]
      rw [ih hnd.2]

/-- Claim C8: with distinct function names, the linkage finalizer is exactly
the pointwise update that resets the linkage of every listed function that
is present to internal: absent names are skipped without error, names,
contents, order and all other module state are untouched, and when no listed
name is present the module is unchanged. -/
theorem linkage_finalizer_contract (names : List String) (m : FModule)
    (hnd : (m.funcs.map FFunc.name).Nodup) :
    finalizeLinkage names m =
      { funcs := m.funcs.map (fun f =>
          if f.name ∈ names then { f with linkage := .internal } else f)
        rest := m.rest } ∧
    ((∀ nm ∈ names, ∀ f ∈ m.funcs, f.name ≠ nm) → finalizeLinkage names m = m) := by
  have hmain : ∀ (ns : List String) (mm : FModule),
      (mm.funcs.map FFunc.name).Nodup →
      finalizeLinkage ns mm =
        { funcs := mm.funcs.map (fun f =>
            if f.name ∈ ns then { f with linkage := .internal } else f)
          rest := mm.rest } := by
    intro ns
    induction ns with
    | nil =>
      intro mm _
      simp [finalizeLinkage]
    | cons nm ns ih =>
      intro mm hmm
      have h1 : finalizeLinkage (nm :: ns) mm =
          finalizeLinkage ns { funcs := setInternalByName nm mm.funcs, rest := mm.rest } := by
        simp [finalizeLinkage]
      rw [h1, ih _ (by rw [setInternalByName_names]; exact hmm)]
      refine congrArg (fun fs => FModule.mk fs mm.rest) ?_
      rw [setInternalByName_eq_map nm mm.funcs hmm, List.map_map]
      refine List.map_congr_left ?_
      intro f _
      by_cases hf : f.name = nm
      · by_cases hfs : f.name ∈ ns <;>
          simp [Function.comp, hf, hfs]
      · by_cases hfs : f.name ∈ ns <;>
          simp [Function.comp, hf, hfs]
  refine ⟨hmain names m hnd, ?_⟩
  intro habs
  rw [hmain names m hnd]
  have : ∀ f ∈ m.funcs,
      (if f.name ∈ names then { f with linkage := Linkage.internal } else f) = f := by
    intro f hf
    rw [if_neg (fun hmem => habs f.name hmem f hf rfl)]
  rw [List.map_congr_left this]
  simp

theorem linkage_finalizer_contract_witness :
    finalizeLinkage ["runtime.alloc", "runtime.free"]
        { funcs := [⟨"runtime.alloc", .external, 4⟩, ⟨"main", .external, 5⟩]
          rest := 11 } =
      { funcs := [⟨"runtime.alloc", .internal, 4⟩, ⟨"main", .external, 5⟩]
        rest := 11 } := by
  have h := (linkage_finalizer_contract ["runtime.alloc", "runtime.free"]
    { funcs := [⟨"runtime.alloc", .external, 4⟩, ⟨"main", .external, 5⟩]
      rest := 11 } (by decide)).1
  simpa using h

/-- Remap a value through a call-id-to-comparison-id assignment: the result
of an erased `runtime.isnil` call becomes the result of its comparison. -/
def substCalls (σ : List (Nat × Nat)) : Value → Value
  | .instr j =>
    match σ.lookup j with
    | some i => .instr i
    | none => .instr j
  | v => v

/-- The end-to-end effect of the lowering loop on one instruction under an
assignment `σ` of processed call ids to comparison ids: a processed call is
replaced in place by its `icmp eq ptr, null` (the pointer unwrapped by one
cast layer, read in the original module), and every other instruction has
its operands remapped through `σ`. -/
def transInstr (m : IRModule) (σ : List (Nat × Nat)) (e : Nat × Instr) : Nat × Instr :=
  match σ.lookup e.1 with
  | some i =>
    (i, ⟨.icmpEqNull, [unwrapCast m (e.2.args.headD .constNull), .constNull]⟩)
  | none => (e.1, ⟨e.2.op, e.2.args.map (substCalls σ)⟩)

/-- The complete assignment built by the loop: the k-th call site (in
program order) gets the comparison id `nextId + k`. -/
def sigmaFull (m : IRModule) : List (Nat × Nat) :=
  (isnilCallIds m).zip (List.range' m.nextId (isnilCallIds m).length)

/-- Keys not in the association list look up to nothing. -/
theorem lookup_eq_none_of_not_mem {α : Type} {l : List (Nat × α)} {k : Nat}
    (h : k ∉ l.map Prod.fst) : l.lookup k = none := by
  induction l with
  | nil => rfl
  | cons e l ih =>
    have h1 : ¬ k = e.1 := fun he => h (by simp [he])
    have h2 : k ∉ l.map Prod.fst := fun hm => h (by simp [hm])
    have h1f : (k == e.1) = false := by simp [h1]
    rw [List.lookup, h1f, ih h2]

/-- With distinct keys, a member pair is what its key looks up to. -/
theorem lookup_eq_some_of_mem {α : Type} {l : List (Nat × α)} {k : Nat} {v : α}
    (hnd : (l.map Prod.fst).Nodup) (hm : (k, v) ∈ l) : l.lookup k = some v := by
  induction l with
  | nil => exact absurd hm (List.not_mem_nil _)
  | cons e l ih =>
    rw [List.map_cons, List.nodup_cons] at hnd
    rcases List.mem_cons.1 hm with h1 | h1
    · rw [← h1]
      simp [List.lookup]
    · have hk : ¬ k = e.1 := by
        intro he
        exact hnd.1 (he ▸ List.mem_map_of_mem Prod.fst h1)
      have hkf : (k == e.1) = false := by simp [hk]
      rw [List.lookup, hkf, ih hnd.2 h1]

/-- A successful lookup comes from a member pair. -/
theorem mem_of_lookup_eq_some {α : Type} {l : List (Nat × α)} {k : Nat} {v : α}
    (h : l.lookup k = some v) : (k, v) ∈ l := by
  induction l with
  | nil => cases h
  | cons e l ih =>
    rw [List.lookup] at h
    cases hk : k == e.1 with
    | true =>
      rw [hk] at h
      cases h
      have hke : k = e.1 := by simpa using hk
      rw [hke]
      exact List.mem_cons_self _ _
    | false =>
      rw [hk] at h
      exact List.mem_cons_of_mem _ (ih h)

/-- A key present in the list looks up to something. -/
theorem lookup_isSome_of_mem {α : Type} {l : List (Nat × α)} {k : Nat}
    (h : k ∈ l.map Prod.fst) : ∃ v, l.lookup k = some v := by
  induction l with
  | nil => simp at h
  | cons e l ih =>
    rw [List.lookup]
    cases hk : k == e.1 with
    | true => exact ⟨e.2, rfl⟩
    | false =>
      have hne : k ≠ e.1 := by
        intro he
        rw [he] at hk
        simp at hk
      rw [List.map_cons, List.mem_cons] at h
      rcases h with h | h
      · exact absurd h hne
      · exact ih h

/-- Looking up in an appended association list tries the left part first. -/
theorem lookup_append {α : Type} (l1 l2 : List (Nat × α)) (k : Nat) :
    (l1 ++ l2).lookup k =
      match l1.lookup k with
      | some v => some v
      | none => l2.lookup k := by
  induction l1 with
  | nil => rfl
  | cons e l1 ih =>
    rw [List.cons_append, List.lookup, List.lookup]
    cases hk : k == e.1 with
    | true => rfl
    | false => exact ih

/-- Membership in the call-site list. -/
theorem mem_isnilCallIds {m : IRModule} {id : Nat} :
    id ∈ isnilCallIds m ↔ ∃ ins, (id, ins) ∈ m.instrs ∧ ins.op = .callIsnil := by
  unfold isnilCallIds
  rw [List.mem_map]
  constructor
  · rintro ⟨e, he, hfst⟩
    rw [List.mem_filter] at he
    refine ⟨e.2, ?_, by simpa using he.2⟩
    rw [← hfst]
    exact he.1
  · rintro ⟨ins, hm, hop⟩
    exact ⟨(id, ins), List.mem_filter.2 ⟨hm, by simpa using hop⟩, rfl⟩

/-- Call-site ids are distinct when instruction ids are. -/
theorem isnilCallIds_nodup {m : IRModule} (hnd : (m.instrs.map Prod.fst).Nodup) :
    (isnilCallIds m).Nodup :=
  List.Nodup.sublist (List.Sublist.map _ (List.filter_sublist _)) hnd

/-- Call-site ids are below the id supply. -/
theorem isnilCallIds_lt {m : IRModule} (hwf : WFModule m) {id : Nat}
    (h : id ∈ isnilCallIds m) : id < m.nextId := by
  obtain ⟨ins, hm, _⟩ := mem_isnilCallIds.1 h
  exact hwf.2.1 (id, ins) hm

/-- With distinct ids, two entries with the same id agree. -/
theorem entry_unique {m : IRModule} (hnd : (m.instrs.map Prod.fst).Nodup)
    {k : Nat} {a b : Instr} (ha : (k, a) ∈ m.instrs) (hb : (k, b) ∈ m.instrs) :
    a = b := by
  have h1 := lookup_eq_some_of_mem hnd ha
  have h2 := lookup_eq_some_of_mem hnd hb
  rw [h1] at h2
  cases h2
  rfl

/-- With distinct values, two pairs with the same value have the same key. -/
theorem snd_nodup_unique {σ : List (Nat × Nat)} (hnd : (σ.map Prod.snd).Nodup)
    {a b i : Nat} (ha : (a, i) ∈ σ) (hb : (b, i) ∈ σ) : a = b := by
  induction σ with
  | nil => exact absurd ha (List.not_mem_nil _)
  | cons e σ ih =>
    rw [List.map_cons, List.nodup_cons] at hnd
    rcases List.mem_cons.1 ha with ha1 | ha1 <;> rcases List.mem_cons.1 hb with hb1 | hb1
    · rw [← hb1] at ha1
      exact congrArg Prod.fst ha1
    · exfalso
      have hmem : i ∈ List.map Prod.snd σ := List.mem_map_of_mem Prod.snd hb1
      have he2 : e.2 = i := by rw [← ha1]
      exact hnd.1 (he2 ▸ hmem)
    · exfalso
      have hmem : i ∈ List.map Prod.snd σ := List.mem_map_of_mem Prod.snd ha1
      have he2 : e.2 = i := by rw [← hb1]
      exact hnd.1 (he2 ▸ hmem)
    · exact ih hnd.2 ha1 hb1

/-- Values that are not call results are untouched by the remapping, as long
as the assignment's keys are call ids. -/
theorem substCalls_eq_self {m : IRModule} {σ : List (Nat × Nat)}
    (hkeys : ∀ k ∈ σ.map Prod.fst, k ∈ isnilCallIds m) {v : Value}
    (hv : ∀ c ∈ isnilCallIds m, v ≠ .instr c) : substCalls σ v = v := by
  cases v with
  | instr j =>
    rw [substCalls]
    cases hl : σ.lookup j with
    | some i =>
      exact absurd rfl
        (hv j (hkeys j (List.mem_map_of_mem Prod.fst (mem_of_lookup_eq_some hl))))
    | none => rfl
  | arg n => rfl
  | constNull => rfl

/-- Arguments of calls and bitcasts are never call results (well-formedness
at the value level). -/
theorem arg_not_callResult {m : IRModule} (hwf : WFModule m) {e : Nat × Instr}
    (he : e ∈ m.instrs) (hop : e.2.op = .callIsnil ∨ e.2.op = .bitcast)
    {v : Value} (hv : v ∈ e.2.args) : ∀ c ∈ isnilCallIds m, v ≠ .instr c := by
  intro c hc heq
  obtain ⟨ins, hm, hins⟩ := mem_isnilCallIds.1 hc
  exact hwf.2.2.2.2 (c, ins) hm hins e he hop (heq ▸ hv)

/-- The unwrapped pointer of a call is never a call result. -/
theorem unwrapCast_not_callResult {m : IRModule} (hwf : WFModule m) {q : Value}
    (hq : ∀ c ∈ isnilCallIds m, q ≠ .instr c) {cid : Nat}
    (hcid : cid ∈ isnilCallIds m) : unwrapCast m q ≠ .instr cid := by
  cases q with
  | instr j =>
    rw [unwrapCast]
    cases hl : lookupInstr m j with
    | some ins =>
      show (if ins.op = Op.bitcast then ins.args.headD (Value.instr j)
        else Value.instr j) ≠ Value.instr cid
      by_cases hb : ins.op = .bitcast
      · rw [if_pos hb]
        cases hargs : ins.args with
        | nil => exact hq cid hcid
        | cons a rest =>
          intro heq
          have hmem : (j, ins) ∈ m.instrs := mem_of_lookup_eq_some hl
          exact arg_not_callResult hwf hmem (Or.inr hb)
            (by rw [hargs]; exact List.mem_cons_self a rest) cid hcid
            (by simpa using heq)
      · rw [if_neg hb]
        exact hq cid hcid
    | none => exact hq cid hcid
  | arg n => exact hq cid hcid
  | constNull => exact hq cid hcid

/-- Extending the assignment by a fresh call id is exactly a use
replacement after the previous remapping. -/
theorem substCalls_snoc {σ : List (Nat × Nat)} {id icmpId : Nat}
    (hid : σ.lookup id = none) (hne : ∀ i ∈ σ.map Prod.snd, i ≠ id) (v : Value) :
    replaceVal id icmpId (substCalls σ v) = substCalls (σ ++ [(id, icmpId)]) v := by
  cases v with
  | instr j =>
    rw [substCalls, substCalls, lookup_append]
    cases hl : σ.lookup j with
    | some i =>
      have hi : i ≠ id := hne i (List.mem_map_of_mem Prod.snd (mem_of_lookup_eq_some hl))
      simp [replaceVal, hi]
    | none =>
      by_cases hj : j = id
      · subst hj
        simp [List.lookup, replaceVal]
      · have hjf : (j == id) = false := by simp [hj]
        simp [List.lookup, replaceVal, hj, hjf]
  | arg n => simp [substCalls, replaceVal]
  | constNull => simp [substCalls, replaceVal]

/-- The instruction ids after the partial transform. -/
theorem trans_fst (m : IRModule) (σ : List (Nat × Nat)) :
    (m.instrs.map (transInstr m σ)).map Prod.fst =
      m.instrs.map (fun e =>
        match σ.lookup e.1 with
        | some i => i
        | none => e.1) := by
  rw [List.map_map]
  refine List.map_congr_left ?_
  intro e _
  simp only [Function.comp]
  unfold transInstr
  cases σ.lookup e.1 <;> rfl

/-- Conditions the loop maintains on the assignment: keys are call ids and
distinct, values are fresh ids and distinct. -/
def GoodSigma (m : IRModule) (σ : List (Nat × Nat)) : Prop :=
  (∀ k ∈ σ.map Prod.fst, k ∈ isnilCallIds m) ∧
  (σ.map Prod.fst).Nodup ∧
  (∀ i ∈ σ.map Prod.snd, m.nextId ≤ i) ∧
  (σ.map Prod.snd).Nodup

/-- The partial transform keeps instruction ids distinct. -/
theorem trans_fst_nodup {m : IRModule} (hwf : WFModule m) {σ : List (Nat × Nat)}
    (hg : GoodSigma m σ) :
    ((m.instrs.map (transInstr m σ)).map Prod.fst).Nodup := by
  rw [trans_fst]
  refine List.Nodup.map_on ?_ (List.Nodup.of_map _ hwf.1)
  intro x hx y hy hxy
  cases hlx : σ.lookup x.1 with
  | some ix =>
    cases hly : σ.lookup y.1 with
    | some iy =>
      simp only [hlx, hly] at hxy
      have hfst : x.1 = y.1 :=
        snd_nodup_unique hg.2.2.2 (mem_of_lookup_eq_some hlx)
          (hxy ▸ mem_of_lookup_eq_some hly)
      have hsnd : x.2 = y.2 := entry_unique hwf.1 hx (hfst ▸ hy)
      exact Prod.ext hfst hsnd
    | none =>
      simp only [hlx, hly] at hxy
      have h1 : m.nextId ≤ ix :=
        hg.2.2.1 ix (List.mem_map_of_mem Prod.snd (mem_of_lookup_eq_some hlx))
      have h2 : y.1 < m.nextId := hwf.2.1 y hy
      omega
  | none =>
    cases hly : σ.lookup y.1 with
    | some iy =>
      simp only [hlx, hly] at hxy
      have h1 : m.nextId ≤ iy :=
        hg.2.2.1 iy (List.mem_map_of_mem Prod.snd (mem_of_lookup_eq_some hly))
      have h2 : x.1 < m.nextId := hwf.2.1 x hx
      omega
    | none =>
      simp only [hlx, hly] at hxy
      have hsnd : x.2 = y.2 := entry_unique hwf.1 hx (hxy ▸ hy)
      exact Prod.ext hxy hsnd

/-- A flat map that yields singletons is a map. -/
theorem flatMap_eq_map_of_forall {α β : Type} {l : List α} {g : α → List β}
    {f : α → β} (h : ∀ a ∈ l, g a = [f a]) : l.flatMap g = l.map f := by
  induction l with
  | nil => rfl
  | cons a l ih =>
    rw [List.flatMap_cons, List.map_cons, h a (List.mem_cons_self a l),
      ih (fun b hb => h b (List.mem_cons_of_mem _ hb))]
    rfl

/-- The unwrap step reads the same value before and after the partial
transform: bitcasts survive it with their operands intact. -/
theorem unwrapCast_trans {m : IRModule} (hwf : WFModule m) {σ : List (Nat × Nat)}
    (hg : GoodSigma m σ) (d : Bool) (nid : Nat) {q : Value}
    (hq : ∀ c ∈ isnilCallIds m, q ≠ .instr c)
    (hqb : valBelow m.nextId q = true) :
    unwrapCast ⟨d, nid, m.instrs.map (transInstr m σ)⟩ q = unwrapCast m q := by
  cases q with
  | arg n => rfl
  | constNull => rfl
  | instr j =>
    have hj : j < m.nextId := by simpa [valBelow] using hqb
    have hjnotcall : j ∉ isnilCallIds m := fun hc => (hq j hc) rfl
    have hjσ : σ.lookup j = none :=
      lookup_eq_none_of_not_mem (fun hm => hjnotcall (hg.1 j hm))
    rw [unwrapCast, unwrapCast]
    cases hl : lookupInstr m j with
    | some ins =>
      have hmem : (j, ins) ∈ m.instrs := mem_of_lookup_eq_some hl
      have hacc : lookupInstr ⟨d, nid, m.instrs.map (transInstr m σ)⟩ j =
          some ⟨ins.op, ins.args.map (substCalls σ)⟩ := by
        apply lookup_eq_some_of_mem (trans_fst_nodup hwf hg)
        have ht : transInstr m σ (j, ins) =
            (j, ⟨ins.op, ins.args.map (substCalls σ)⟩) := by
          unfold transInstr
          rw [show ((j, ins) : Nat × Instr).1 = j from rfl, hjσ]
        rw [← ht]
        exact List.mem_map_of_mem _ hmem
      rw [hacc]
      show (if (Instr.mk ins.op (ins.args.map (substCalls σ))).op = Op.bitcast
          then (Instr.mk ins.op (ins.args.map (substCalls σ))).args.headD
            (Value.instr j)
          else Value.instr j) =
        (if ins.op = Op.bitcast then ins.args.headD (Value.instr j)
          else Value.instr j)
      by_cases hb : ins.op = .bitcast
      · rw [if_pos hb, if_pos hb]
        cases hargs : ins.args with
        | nil => rfl
        | cons a rest =>
          have ha : substCalls σ a = a :=
            substCalls_eq_self hg.1
              (arg_not_callResult hwf hmem (Or.inr hb)
                (by rw [hargs]; exact List.mem_cons_self a rest))
          simp [ha]
      · rw [if_neg hb, if_neg hb]
    | none =>
      have hacc : lookupInstr ⟨d, nid, m.instrs.map (transInstr m σ)⟩ j = none := by
        apply lookup_eq_none_of_not_mem
        rw [trans_fst, List.mem_map]
        rintro ⟨e, he, hej⟩
        cases hle : σ.lookup e.1 with
        | some i =>
          simp only [hle] at hej
          have h1 : m.nextId ≤ i :=
            hg.2.2.1 i (List.mem_map_of_mem Prod.snd (mem_of_lookup_eq_some hle))
          omega
        | none =>
          simp only [hle] at hej
          have hmemj : j ∈ m.instrs.map Prod.fst := by
            rw [← hej]
            exact List.mem_map_of_mem Prod.fst he
          obtain ⟨v, hv⟩ := lookup_isSome_of_mem hmemj
          rw [show lookupInstr m j = m.instrs.lookup j from rfl] at hl
          rw [hl] at hv
          cases hv
      rw [hacc]

/-- Processing one call site advances the partial transform by exactly one
assignment: the call is replaced in place by its comparison with the fresh
id, and all uses of its result are redirected to that id. -/
theorem lowerOneIsnil_trans {m : IRModule} (hwf : WFModule m)
    {σ : List (Nat × Nat)} (hg : GoodSigma m σ) {id : Nat} {insC : Instr}
    {p : Value} (hmem : (id, insC) ∈ m.instrs) (hop : insC.op = .callIsnil)
    (hargs : insC.args = [p]) (hidσ : σ.lookup id = none) :
    lowerOneIsnil
        ⟨m.isnilDeclared, m.nextId + σ.length, m.instrs.map (transInstr m σ)⟩
        id p =
      ⟨m.isnilDeclared, m.nextId + σ.length + 1,
        m.instrs.map (transInstr m (σ ++ [(id, m.nextId + σ.length)]))⟩ := by
  have hidlt : id < m.nextId := hwf.2.1 (id, insC) hmem
  have hid_call : id ∈ isnilCallIds m := mem_isnilCallIds.2 ⟨insC, hmem, hop⟩
  have hne_snd : ∀ i ∈ σ.map Prod.snd, i ≠ id := by
    intro i hi hie
    have := hg.2.2.1 i hi
    omega
  have hp_mem : p ∈ insC.args := by
    rw [hargs]
    exact List.mem_cons_self p []
  have hp_args : ∀ c ∈ isnilCallIds m, p ≠ .instr c :=
    arg_not_callResult hwf hmem (Or.inl hop) hp_mem
  have hpb : valBelow m.nextId p = true := hwf.2.2.1 (id, insC) hmem p hp_mem
  have hunw := unwrapCast_trans hwf hg m.isnilDeclared (m.nextId + σ.length)
    hp_args hpb
  have hu_ne : unwrapCast m p ≠ .instr id :=
    unwrapCast_not_callResult hwf hp_args hid_call
  unfold lowerOneIsnil
  refine congrArg
    (fun l => IRModule.mk m.isnilDeclared (m.nextId + σ.length + 1) l) ?_
  rw [List.flatMap_map]
  refine flatMap_eq_map_of_forall ?_
  intro e he
  simp only [Function.comp]
  cases hle : σ.lookup e.1 with
  | some i =>
    have hi_ge : m.nextId ≤ i :=
      hg.2.2.1 i (List.mem_map_of_mem Prod.snd (mem_of_lookup_eq_some hle))
    have hi_ne : ¬ i = id := by omega
    have he1_call : e.1 ∈ isnilCallIds m :=
      hg.1 e.1 (List.mem_map_of_mem Prod.fst (mem_of_lookup_eq_some hle))
    obtain ⟨ins', hmem', hop'⟩ := mem_isnilCallIds.1 he1_call
    have hins' : ins' = e.2 := entry_unique hwf.1 hmem' he
    have hq_e : ∀ c ∈ isnilCallIds m, e.2.args.headD .constNull ≠ .instr c := by
      intro c hc
      cases harg : e.2.args with
      | nil => simp
      | cons a rest =>
        have hamem : a ∈ e.2.args := by
          rw [harg]
          exact List.mem_cons_self a rest
        simpa using arg_not_callResult hwf he (Or.inl (hins' ▸ hop')) hamem c hc
    have hu_ne' : unwrapCast m (e.2.args.headD .constNull) ≠ .instr id :=
      unwrapCast_not_callResult hwf hq_e hid_call
    have hLe : transInstr m σ e =
        (i, ⟨.icmpEqNull,
          [unwrapCast m (e.2.args.headD .constNull), .constNull]⟩) := by
      unfold transInstr
      rw [hle]
    have hL'e : transInstr m (σ ++ [(id, m.nextId + σ.length)]) e =
        (i, ⟨.icmpEqNull,
          [unwrapCast m (e.2.args.headD .constNull), .constNull]⟩) := by
      unfold transInstr
      rw [lookup_append, hle]
    rw [hLe, hL'e]
    have hrepl_u : replaceVal id (m.nextId + σ.length)
        (unwrapCast m (e.2.args.headD Value.constNull)) =
        unwrapCast m (e.2.args.headD Value.constNull) := by
      unfold replaceVal
      rw [if_neg hu_ne']
    have hrepl_null : replaceVal id (m.nextId + σ.length) Value.constNull =
        Value.constNull := by
      unfold replaceVal
      rw [if_neg (fun h => Value.noConfusion h)]
    simp only [hi_ne, if_false, List.map_cons, List.map_nil, hrepl_u, hrepl_null]
  | none =>
    by_cases he1 : e.1 = id
    · have hinsE : e.2 = insC := by
        refine entry_unique hwf.1 ?_ hmem
        rw [← he1]
        exact he
      have hsp : substCalls σ p = p := substCalls_eq_self hg.1 hp_args
      have hLe : transInstr m σ e = (id, ⟨.callIsnil, [p]⟩) := by
        unfold transInstr
        rw [hle]
        simp [he1, hinsE, hop, hargs, hsp]
      have hL'e : transInstr m (σ ++ [(id, m.nextId + σ.length)]) e =
          (m.nextId + σ.length, ⟨.icmpEqNull, [unwrapCast m p, .constNull]⟩) := by
        unfold transInstr
        rw [lookup_append, hle, he1]
        simp [List.lookup, hinsE, hargs]
      rw [hLe, hL'e]
      have hrepl_u : replaceVal id (m.nextId + σ.length) (unwrapCast m p) =
          unwrapCast m p := by
        unfold replaceVal
        rw [if_neg hu_ne]
      have hrepl_null : replaceVal id (m.nextId + σ.length) Value.constNull =
          Value.constNull := by
        unfold replaceVal
        rw [if_neg (fun h => Value.noConfusion h)]
      simp only [if_pos, List.map_cons, List.map_nil, hunw, hrepl_u, hrepl_null]
    · have hL'lookup : (σ ++ [(id, m.nextId + σ.length)]).lookup e.1 = none := by
        have hbf : (e.1 == id) = false := by simp [he1]
        rw [lookup_append, hle]
        show [(id, m.nextId + σ.length)].lookup e.1 = none
        rw [List.lookup, hbf]
        rfl
      have hLe : transInstr m σ e = (e.1, ⟨e.2.op, e.2.args.map (substCalls σ)⟩) := by
        unfold transInstr
        rw [hle]
      have hL'e : transInstr m (σ ++ [(id, m.nextId + σ.length)]) e =
          (e.1, ⟨e.2.op,
            e.2.args.map (substCalls (σ ++ [(id, m.nextId + σ.length)]))⟩) := by
        unfold transInstr
        rw [hL'lookup]
      rw [hLe, hL'e]
      have hmaps : (e.2.args.map (substCalls σ)).map
          (replaceVal id (m.nextId + σ.length)) =
          e.2.args.map (substCalls (σ ++ [(id, m.nextId + σ.length)])) := by
        rw [List.map_map]
        refine List.map_congr_left ?_
        intro v _
        exact substCalls_snoc hidσ hne_snd v
      simp only [he1, if_false, hmaps]

/-- A pair list is the zip of its two projections. -/
theorem zip_fst_snd_self {α β : Type} : ∀ l : List (α × β),
    (l.map Prod.fst).zip (l.map Prod.snd) = l := by
  intro l
  induction l with
  | nil => rfl
  | cons e l ih => simp [ih]

/-- The whole lowering loop from any partially processed state. -/
theorem lowerLoop_eq (m : IRModule) (hwf : WFModule m) :
    ∀ (pending : List Nat) (σ : List (Nat × Nat)),
    isnilCallIds m = σ.map Prod.fst ++ pending →
    σ.map Prod.snd = List.range' m.nextId σ.length →
    pending.foldl isnilStep
      ⟨m.isnilDeclared, m.nextId + σ.length, m.instrs.map (transInstr m σ)⟩ =
    ⟨m.isnilDeclared, m.nextId + (isnilCallIds m).length,
      m.instrs.map (transInstr m (sigmaFull m))⟩ := by
  intro pending
  induction pending with
  | nil =>
    intro σ hfst hsnd
    rw [List.foldl_nil]
    have hfst0 : σ.map Prod.fst = isnilCallIds m := by rw [hfst, List.append_nil]
    have hlen : σ.length = (isnilCallIds m).length := by
      rw [← hfst0, List.length_map]
    have hσ : σ = sigmaFull m := by
      unfold sigmaFull
      rw [← hfst0, List.length_map, ← hsnd]
      exact (zip_fst_snd_self σ).symm
    rw [hlen, hσ]
  | cons id rest ih =>
    intro σ hfst hsnd
    have hnd := isnilCallIds_nodup hwf.1
    have hid_call : id ∈ isnilCallIds m := by
      rw [hfst]
      exact List.mem_append.2 (Or.inr (List.mem_cons_self id rest))
    obtain ⟨insC, hmemC, hopC⟩ := mem_isnilCallIds.1 hid_call
    obtain ⟨p, hargsC0⟩ :=
      List.length_eq_one.1 (hwf.2.2.2.1 (id, insC) hmemC hopC)
    have hargsC : insC.args = [p] := hargsC0
    have hndapp := hfst ▸ hnd
    rw [List.nodup_append] at hndapp
    have hgood : GoodSigma m σ := by
      refine ⟨?_, hndapp.1, ?_, ?_⟩
      · intro k hk
        rw [hfst]
        exact List.mem_append.2 (Or.inl hk)
      · intro i hi
        rw [hsnd] at hi
        exact (List.mem_range'_1.1 hi).1
      · rw [hsnd]
        exact List.nodup_range' _ _
    have hidσ : σ.lookup id = none := by
      apply lookup_eq_none_of_not_mem
      intro hidmem
      exact hndapp.2.2 hidmem (List.mem_cons_self id rest)
    have hsp : substCalls σ p = p :=
      substCalls_eq_self hgood.1
        (arg_not_callResult hwf hmemC (Or.inl hopC)
          (by rw [hargsC]; exact List.mem_cons_self p []))
    have hlook : lookupInstr
        ⟨m.isnilDeclared, m.nextId + σ.length, m.instrs.map (transInstr m σ)⟩ id =
        some ⟨.callIsnil, [p]⟩ := by
      apply lookup_eq_some_of_mem (trans_fst_nodup hwf hgood)
      have ht : transInstr m σ (id, insC) = (id, ⟨.callIsnil, [p]⟩) := by
        unfold transInstr
        rw [show ((id, insC) : Nat × Instr).1 = id from rfl, hidσ]
        simp [hopC, hargsC, hsp]
      rw [← ht]
      exact List.mem_map_of_mem _ hmemC
    have hstep : isnilStep
        ⟨m.isnilDeclared, m.nextId + σ.length, m.instrs.map (transInstr m σ)⟩ id =
        ⟨m.isnilDeclared, m.nextId + σ.length + 1,
          m.instrs.map (transInstr m (σ ++ [(id, m.nextId + σ.length)]))⟩ := by
      unfold isnilStep
      rw [hlook]
      show lowerOneIsnil
          ⟨m.isnilDeclared, m.nextId + σ.length, m.instrs.map (transInstr m σ)⟩
          id p = _
      exact lowerOneIsnil_trans hwf hgood hmemC hopC hargsC hidσ
    rw [List.foldl_cons, hstep]
    have hfst' : isnilCallIds m =
        (σ ++ [(id, m.nextId + σ.length)]).map Prod.fst ++ rest := by
      rw [List.map_append, hfst]
      simp
    have hsnd' : (σ ++ [(id, m.nextId + σ.length)]).map Prod.snd =
        List.range' m.nextId (σ ++ [(id, m.nextId + σ.length)]).length := by
      rw [List.map_append, hsnd]
      simp [List.range'_concat]
    have hrec := ih (σ ++ [(id, m.nextId + σ.length)]) hfst' hsnd'
    have hlen1 : (σ ++ [(id, m.nextId + σ.length)]).length = σ.length + 1 := by
      simp
    rw [hlen1, ← Nat.add_assoc] at hrec
    exact hrec

/-- The empty assignment changes nothing. -/
theorem transInstr_nil (m : IRModule) (e : Nat × Instr) : transInstr m [] e = e := by
  unfold transInstr
  have h1 : ∀ v, substCalls ([] : List (Nat × Nat)) v = v := by
    intro v
    cases v <;> rfl
  have h2 : e.2.args.map (substCalls []) = e.2.args := by
    have h := List.map_congr_left (l := e.2.args) (f := substCalls [])
      (g := id) (fun a _ => h1 a)
    simpa using h
  rw [show ([] : List (Nat × Nat)).lookup e.1 = none from rfl, h2]

/-- Full characterization of the `runtime.isnil` lowering loop on a
well-formed module with the helper declared: every call site is replaced in
place by an `icmp eq` against null on its (one-layer-unwrapped) pointer and
every other instruction has each erased call result remapped to the
corresponding comparison result. -/
theorem lowerIsnilCalls_eq (m : IRModule) (hwf : WFModule m)
    (hd : m.isnilDeclared = true) :
    lowerIsnilCalls m =
      ⟨m.isnilDeclared, m.nextId + (isnilCallIds m).length,
        m.instrs.map (transInstr m (sigmaFull m))⟩ := by
  unfold lowerIsnilCalls
  rw [if_pos hd]
  have hmap : m.instrs.map (transInstr m []) = m.instrs := by
    have h := List.map_congr_left (l := m.instrs) (f := transInstr m [])
      (g := id) (fun e _ => transInstr_nil m e)
    simpa using h
  have h := lowerLoop_eq m hwf (isnilCallIds m) [] (by simp) rfl
  rw [hmap] at h
  simp only [List.length_nil, Nat.add_zero] at h
  exact h

/-- An entry whose id is a call-site id is a `runtime.isnil` call. -/
theorem callEntry_of_mem_keys {m : IRModule} (hwf : WFModule m) {k : Nat}
    (hk : k ∈ isnilCallIds m) {e : Nat × Instr} (he : e ∈ m.instrs)
    (hek : e.1 = k) : e.2.op = .callIsnil := by
  obtain ⟨ins, hm, hins⟩ := mem_isnilCallIds.1 hk
  have hm' : (e.1, ins) ∈ m.instrs := by
    rw [hek]
    exact hm
  rw [← entry_unique hwf.1 hm' he]
  exact hins

/-- The pointer operand of a call is not a call result. -/
theorem headD_call_not_callResult {m : IRModule} (hwf : WFModule m)
    {e : Nat × Instr} (he : e ∈ m.instrs) (hop : e.2.op = .callIsnil) :
    ∀ c ∈ isnilCallIds m, e.2.args.headD .constNull ≠ .instr c := by
  intro c hc
  cases harg : e.2.args with
  | nil => simp
  | cons a rest =>
    have hamem : a ∈ e.2.args := by
      rw [harg]
      exact List.mem_cons_self a rest
    simpa using arg_not_callResult hwf he (Or.inl hop) hamem c hc

/-- The complete assignment projects to the call ids and to fresh ids. -/
theorem sigmaFull_fst (m : IRModule) :
    (sigmaFull m).map Prod.fst = isnilCallIds m :=
  List.map_fst_zip _ _ (by simp)

/-- The values of the complete assignment are the fresh comparison ids. -/
theorem sigmaFull_snd (m : IRModule) :
    (sigmaFull m).map Prod.snd =
      List.range' m.nextId (isnilCallIds m).length :=
  List.map_snd_zip _ _ (by simp)

/-- The complete assignment satisfies the loop conditions. -/
theorem sigmaFull_good {m : IRModule} (hwf : WFModule m) :
    GoodSigma m (sigmaFull m) := by
  refine ⟨?_, ?_, ?_, ?_⟩
  · rw [sigmaFull_fst]
    exact fun k hk => hk
  · rw [sigmaFull_fst]
    exact isnilCallIds_nodup hwf.1
  · rw [sigmaFull_snd]
    intro i hi
    exact (List.mem_range'_1.1 hi).1
  · rw [sigmaFull_snd]
    exact List.nodup_range' _ _

/-- Claim C4: if `runtime.isnil` is absent the step is a no-op, not an
error.  Otherwise, on a well-formed module, after the lowering no
`runtime.isnil` call remains (the helper is no longer referenced); each call
site gains a pointer-equality-to-null comparison whose operand is the
original pointer operand with at most one layer of type-reinterpreting cast
removed, every use of the call's result is redirected to that comparison's
result, and the call itself is erased; unwrapping removes exactly one cast
layer when the operand is the result of a cast and nothing otherwise. -/
theorem nil_check_lowering_contract (m : IRModule) (hwf : WFModule m) :
    (m.isnilDeclared = false → lowerIsnilCalls m = m) ∧
    (m.isnilDeclared = true →
      (∀ e ∈ (lowerIsnilCalls m).instrs, e.2.op ≠ .callIsnil) ∧
      (∀ e ∈ m.instrs, e.2.op = .callIsnil →
        ∃ i, ((i, Instr.mk .icmpEqNull
            [unwrapCast m (e.2.args.headD .constNull), .constNull]) ∈
              (lowerIsnilCalls m).instrs ∧
          substCalls (sigmaFull m) (.instr e.1) = .instr i)) ∧
      (∀ e ∈ m.instrs, e.2.op = .callIsnil →
        e.1 ∉ (lowerIsnilCalls m).instrs.map Prod.fst) ∧
      (∀ e ∈ m.instrs, e.2.op = .callIsnil →
        ∀ e2 ∈ (lowerIsnilCalls m).instrs, Value.instr e.1 ∉ e2.2.args) ∧
      (∀ e ∈ m.instrs, e.2.op ≠ .callIsnil →
        (e.1, Instr.mk e.2.op (e.2.args.map (substCalls (sigmaFull m)))) ∈
          (lowerIsnilCalls m).instrs)) ∧
    (∀ j ins, (j, ins) ∈ m.instrs → ins.op = .bitcast →
      unwrapCast m (.instr j) = ins.args.headD (.instr j)) ∧
    (∀ v, (∀ j, v = Value.instr j →
        ∀ ins, (j, ins) ∈ m.instrs → ins.op ≠ .bitcast) →
      unwrapCast m v = v) := by
  refine ⟨?_, ?_, ?_, ?_⟩
  · intro hd
    unfold lowerIsnilCalls
    rw [hd]
    rfl
  · intro hd
    have hchar := lowerIsnilCalls_eq m hwf hd
    have hgoodf := sigmaFull_good hwf
    refine ⟨?_, ?_, ?_, ?_, ?_⟩
    · intro e' he'
      rw [hchar] at he'
      obtain ⟨e, he, hte⟩ := List.mem_map.1 he'
      cases hle : (sigmaFull m).lookup e.1 with
      | some i =>
        have : transInstr m (sigmaFull m) e =
            (i, ⟨.icmpEqNull,
              [unwrapCast m (e.2.args.headD .constNull), .constNull]⟩) := by
          unfold transInstr
          rw [hle]
        rw [this] at hte
        rw [← hte]
        intro hcontra
        cases hcontra
      | none =>
        have : transInstr m (sigmaFull m) e =
            (e.1, ⟨e.2.op, e.2.args.map (substCalls (sigmaFull m))⟩) := by
          unfold transInstr
          rw [hle]
        rw [this] at hte
        rw [← hte]
        intro hcontra
        have hkey : e.1 ∈ (sigmaFull m).map Prod.fst := by
          rw [sigmaFull_fst]
          exact mem_isnilCallIds.2 ⟨e.2, he, by simpa using hcontra⟩
        obtain ⟨v, hv⟩ := lookup_isSome_of_mem hkey
        rw [hle] at hv
        cases hv
    · intro e he hop
      have hkey : e.1 ∈ (sigmaFull m).map Prod.fst := by
        rw [sigmaFull_fst]
        exact mem_isnilCallIds.2 ⟨e.2, he, hop⟩
      obtain ⟨i, hi⟩ := lookup_isSome_of_mem hkey
      refine ⟨i, ?_, ?_⟩
      · rw [hchar]
        have : transInstr m (sigmaFull m) e =
            (i, ⟨.icmpEqNull,
              [unwrapCast m (e.2.args.headD .constNull), .constNull]⟩) := by
          unfold transInstr
          rw [hi]
        rw [← this]
        exact List.mem_map_of_mem _ he
      · show (match (sigmaFull m).lookup e.1 with
          | some i => Value.instr i
          | none => Value.instr e.1) = Value.instr i
        rw [hi]
    · intro e he hop hkeys
      rw [hchar] at hkeys
      rw [show (⟨m.isnilDeclared, m.nextId + (isnilCallIds m).length,
          m.instrs.map (transInstr m (sigmaFull m))⟩ : IRModule).instrs =
          m.instrs.map (transInstr m (sigmaFull m)) from rfl] at hkeys
      rw [trans_fst] at hkeys
      obtain ⟨e2, he2, hfe2⟩ := List.mem_map.1 hkeys
      have he1lt : e.1 < m.nextId := hwf.2.1 e he
      cases hle : (sigmaFull m).lookup e2.1 with
      | some i2 =>
        simp only [hle] at hfe2
        have : m.nextId ≤ i2 :=
          hgoodf.2.2.1 i2 (List.mem_map_of_mem Prod.snd (mem_of_lookup_eq_some hle))
        omega
      | none =>
        simp only [hle] at hfe2
        have hkey : e2.1 ∈ (sigmaFull m).map Prod.fst := by
          rw [sigmaFull_fst, hfe2]
          exact mem_isnilCallIds.2 ⟨e.2, he, hop⟩
        obtain ⟨v, hv⟩ := lookup_isSome_of_mem hkey
        rw [hle] at hv
        cases hv
    · intro e he hop e2' he2'
      have he1_call : e.1 ∈ isnilCallIds m := mem_isnilCallIds.2 ⟨e.2, he, hop⟩
      have he1lt : e.1 < m.nextId := hwf.2.1 e he
      have hkey : e.1 ∈ (sigmaFull m).map Prod.fst := by
        rw [sigmaFull_fst]
        exact he1_call
      rw [hchar] at he2'
      obtain ⟨e2, he2, hte2⟩ := List.mem_map.1 he2'
      cases hle : (sigmaFull m).lookup e2.1 with
      | some i2 =>
        have ht : transInstr m (sigmaFull m) e2 =
            (i2, ⟨.icmpEqNull,
              [unwrapCast m (e2.2.args.headD .constNull), .constNull]⟩) := by
          unfold transInstr
          rw [hle]
        rw [ht] at hte2
        rw [← hte2]
        have hcall2 : e2.2.op = .callIsnil :=
          callEntry_of_mem_keys hwf
            (by rw [← sigmaFull_fst]
                exact List.mem_map_of_mem Prod.fst (mem_of_lookup_eq_some hle))
            he2 rfl
        have hune : unwrapCast m (e2.2.args.headD .constNull) ≠ .instr e.1 :=
          unwrapCast_not_callResult hwf
            (headD_call_not_callResult hwf he2 hcall2) he1_call
        intro hmem
        rcases List.mem_cons.1 hmem with h | h
        · exact hune h.symm
        · simp at h
      | none =>
        have ht : transInstr m (sigmaFull m) e2 =
            (e2.1, ⟨e2.2.op, e2.2.args.map (substCalls (sigmaFull m))⟩) := by
          unfold transInstr
          rw [hle]
        rw [ht] at hte2
        rw [← hte2]
        intro hmem
        obtain ⟨v, hvmem, hveq⟩ := List.mem_map.1 hmem
        cases v with
        | instr j =>
          rw [substCalls] at hveq
          cases hlv : (sigmaFull m).lookup j with
          | some iv =>
            rw [hlv] at hveq
            have h1 : m.nextId ≤ iv :=
              hgoodf.2.2.1 iv
                (List.mem_map_of_mem Prod.snd (mem_of_lookup_eq_some hlv))
            have h2 : iv = e.1 := by simpa using hveq
            omega
          | none =>
            rw [hlv] at hveq
            have hje : j = e.1 := by simpa using hveq
            obtain ⟨v2, hv2⟩ := lookup_isSome_of_mem hkey
            rw [← hje, hlv] at hv2
            cases hv2
        | arg n => simp [substCalls] at hveq
        | constNull => simp [substCalls] at hveq
    · intro e he hop
      have hle : (sigmaFull m).lookup e.1 = none := by
        apply lookup_eq_none_of_not_mem
        rw [sigmaFull_fst]
        intro hc
        exact hop (callEntry_of_mem_keys hwf hc he rfl)
      rw [hchar]
      have ht : transInstr m (sigmaFull m) e =
          (e.1, ⟨e.2.op, e.2.args.map (substCalls (sigmaFull m))⟩) := by
        unfold transInstr
        rw [hle]
      rw [← ht]
      exact List.mem_map_of_mem _ he
  · intro j ins hmem hb
    have hl : lookupInstr m j = some ins := lookup_eq_some_of_mem hwf.1 hmem
    rw [unwrapCast, hl]
    show (if ins.op = Op.bitcast then ins.args.headD (Value.instr j)
      else Value.instr j) = ins.args.headD (Value.instr j)
    rw [if_pos hb]
  · intro v hv
    cases v with
    | instr j =>
      rw [unwrapCast]
      cases hl : lookupInstr m j with
      | some ins =>
        have hnb : ins.op ≠ .bitcast := hv j rfl ins (mem_of_lookup_eq_some hl)
        show (if ins.op = Op.bitcast then ins.args.headD (Value.instr j)
          else Value.instr j) = Value.instr j
        rw [if_neg hnb]
      | none => rfl
    | arg n => rfl
    | constNull => rfl

/-- Concrete module used by the nil-check witness: one call through a
bitcast, one direct call, and a user of both results. -/
def mW : IRModule :=
  { isnilDeclared := true
    nextId := 10
    instrs := [(1, ⟨.bitcast, [.arg 0]⟩),
               (2, ⟨.callIsnil, [.instr 1]⟩),
               (3, ⟨.callIsnil, [.arg 1]⟩),
               (4, ⟨.other 0, [.instr 2, .instr 3, .arg 2]⟩)] }

theorem nil_check_lowering_contract_witness :
    (2 : Nat) ∉ (lowerIsnilCalls mW).instrs.map Prod.fst :=
  ((nil_check_lowering_contract mW (by decide)).2.1 rfl).2.2.1
    (2, ⟨.callIsnil, [.instr 1]⟩) (by decide) rfl

end TinyGoOpt
